import Mathlib

/-!
Verification of the transaction construction core of the 0l-txs client.

The repository source under version control here contains the CLI dispatch
module (src/txs_cli/mod.rs); the parsing, encoding, assembly and signing
subsystems are referenced submodules whose sources are not present, so they
are modelled from the specification document (each such definition carries a
doc comment starting with the words Modelled from the spec).  The CLI
dispatch for the GenerateTransaction subcommand is embedded directly from
the source.
-/

namespace OlTxs

/-- Characters treated as whitespace when trimming user-supplied tokens. -/
def isWsChar (c : Char) : Bool := c = ' ' || c = '\t' || c = '\n' || c = '\r'

/-- Remove leading and trailing whitespace from a token. -/
def trimTok (cs : List Char) : List Char :=
  ((cs.dropWhile isWsChar).reverse.dropWhile isWsChar).reverse

/-- Decimal digit test. -/
def isDigitChar (c : Char) : Bool := '0' ≤ c && c ≤ '9'

/-- Hexadecimal digit test. -/
def isHexChar (c : Char) : Bool :=
  isDigitChar c || ('a' ≤ c && c ≤ 'f') || ('A' ≤ c && c ≤ 'F')

/-- First character of a Move identifier: a letter or an underscore. -/
def isIdentStartChar (c : Char) : Bool := c.isAlpha || c = '_'

/-- Subsequent character of a Move identifier. -/
def isIdentChar (c : Char) : Bool := c.isAlphanum || c = '_'

/-- Modelled from the spec: a syntactically valid identifier segment
(module or function name) as validated by the missing resolver/parser
submodules. -/
def validIdent (cs : List Char) : Bool :=
  match cs with
  | [] => false
  | c :: rest => isIdentStartChar c && rest.all isIdentChar

/-- Modelled from the spec: a well-formed address segment, a 0x-prefixed
nonempty hexadecimal string. -/
def validAddress (cs : List Char) : Bool :=
  match cs with
  | '0' :: 'x' :: rest => !rest.isEmpty && rest.all isHexChar
  | _ => false

/-- One step of bracket-depth tracking: `o` opens, `c` closes. -/
def stepDepth (o c : Char) (d : Nat) (ch : Char) : Nat :=
  if ch = o then d + 1 else if ch = c then d - 1 else d

/-- Bracket depth after scanning a character list, starting from depth `d`. -/
def depthAfter (o c : Char) (d : Nat) (cs : List Char) : Nat :=
  cs.foldl (stepDepth o c) d

/-- True when scanning from depth `d` never meets a closing bracket at depth
zero. -/
def noDip (o c : Char) : Nat → List Char → Bool
  | _, [] => true
  | d, ch :: rest =>
    if ch == c && d == 0 then false else noDip o c (stepDepth o c d ch) rest

/-- Angle brackets of a token are balanced: no early close and net depth
zero. -/
def balancedAngle (cs : List Char) : Bool :=
  noDip '<' '>' 0 cs && depthAfter '<' '>' 0 cs == 0

/-- True when scanning from depth `d` never meets the separator at depth
zero; the tokens produced by the top-level splitter all satisfy this at
depth zero. -/
def noSepAtTop (sep o c : Char) : Nat → List Char → Bool
  | _, [] => true
  | d, ch :: rest =>
    if ch == sep && d == 0 then false
    else noSepAtTop sep o c (stepDepth o c d ch) rest

/-- Modelled from the spec: the comma splitter shared by the type-tag and
literal parsers (missing submodules), which must not treat commas nested
inside brackets as top-level separators.  `o`/`c` are the bracket pair and
`d` the current depth. -/
def splitTopD (o c : Char) : List Char → Nat → List (List Char)
  | [], _ => [[]]
  | ch :: rest, d =>
    if ch == ',' && d == 0 then [] :: splitTopD o c rest 0
    else
      match splitTopD o c rest (stepDepth o c d ch) with
      | [] => [[ch]]
      | t :: ts => (ch :: t) :: ts

/-- Split a string on top-level commas with respect to the bracket pair
`o`/`c`. -/
def splitTop (o c : Char) (cs : List Char) : List (List Char) :=
  splitTopD o c cs 0

/-- Join a token list back with the given separator character; inverse of
the splitters. -/
def joinSep (sep : Char) : List (List Char) → List Char
  | [] => []
  | [t] => t
  | t :: ts => t ++ sep :: joinSep sep ts

/-- Plain character split, used by the function-identifier resolver for
the double-colon separators. -/
def splitOn (sep : Char) : List Char → List (List Char)
  | [] => [[]]
  | ch :: rest =>
    if ch == sep then [] :: splitOn sep rest
    else
      match splitOn sep rest with
      | [] => [[ch]]
      | t :: ts => (ch :: t) :: ts

/-- Index of the first occurrence of a character (length when absent). -/
def idxOfChar (t : Char) : List Char → Nat
  | [] => 0
  | ch :: rest => if ch == t then 0 else idxOfChar t rest + 1

/-- Value of a decimal digit character. -/
def digitVal (c : Char) : Nat := c.toNat - 48

/-- Modelled from the spec: decimal integer reading inside the missing
literal parser submodule. -/
def parseDecimal (cs : List Char) : Option Nat :=
  if !cs.isEmpty && cs.all isDigitChar then
    some (cs.foldl (fun a ch => a * 10 + digitVal ch) 0)
  else none

/-- Render a decimal digit as a character. -/
def decDigitChar (d : Nat) : Char := Char.ofNat (48 + d)

/-- Decimal rendering of a natural number. -/
def decRep (n : Nat) : List Char :=
  if n = 0 then ['0'] else ((Nat.digits 10 n).map decDigitChar).reverse

/-- Value of a hexadecimal digit character. -/
def hexVal (c : Char) : Nat :=
  if isDigitChar c then c.toNat - 48
  else if 'a' ≤ c && c ≤ 'f' then c.toNat - 87
  else c.toNat - 55

/-- Numeric value of a hexadecimal string. -/
def hexToNat (cs : List Char) : Nat :=
  cs.foldl (fun a ch => a * 16 + hexVal ch) 0

/-- Modelled from the spec: hex byte-string body decoding (pairs of hex
digits) inside the missing literal parser submodule. -/
def hexPairsToBytes : List Char → Option (List Nat)
  | [] => some []
  | c1 :: c2 :: rest =>
    if isHexChar c1 && isHexChar c2 then
      (hexPairsToBytes rest).map (fun bs => (hexVal c1 * 16 + hexVal c2) :: bs)
    else none
  | _ => none

/-- Little-endian byte rendering of a value into `k` bytes. -/
def leBytes : Nat → Nat → List Nat
  | 0, _ => []
  | k + 1, v => v % 256 :: leBytes k (v / 256)

/-- Big-endian byte rendering of a value into `k` bytes. -/
def beBytes (k v : Nat) : List Nat := (leBytes k v).reverse

/-- Fuel-bounded base-128 digit expansion; the fuel only needs to exceed
the number of digits. -/
def uleb128F : Nat → Nat → List Nat
  | 0, _ => []
  | fuel + 1, n => if n < 128 then [n] else (n % 128 + 128) :: uleb128F fuel (n / 128)

/-- Modelled from the spec: the variable-length length prefix used by the
canonical binary encoding the missing encoder submodule produces. -/
def uleb128 (n : Nat) : List Nat := uleb128F (n + 1) n

/-- Error taxonomy of the core, as given in the specification. -/
inductive TxError where
  | parseError
  | overflowError
  | arityMismatch
  | invalidIdentifier
  | invalidKey
  | decodeError
  deriving DecidableEq, Repr

/-- Apply a fallible elementwise function to a token list, propagating the
first error. -/
def exList {α : Type} (f : List Char → Except TxError α) :
    List (List Char) → Except TxError (List α)
  | [] => .ok []
  | tok :: toks =>
    match f tok with
    | .ok x =>
      match exList f toks with
      | .ok xs => .ok (x :: xs)
      | .error e => .error e
    | .error e => .error e

/-- Supported unsigned-integer widths. -/
inductive IntWidth where
  | w8
  | w16
  | w32
  | w64
  | w128
  | w256
  deriving DecidableEq, Repr

/-- Bit width of an integer width. -/
def IntWidth.bits : IntWidth → Nat
  | .w8 => 8
  | .w16 => 16
  | .w32 => 32
  | .w64 => 64
  | .w128 => 128
  | .w256 => 256

/-- Keyword (also literal suffix) of an integer width. -/
def IntWidth.suffixChars : IntWidth → List Char
  | .w8 => ['u', '8']
  | .w16 => ['u', '1', '6']
  | .w32 => ['u', '3', '2']
  | .w64 => ['u', '6', '4']
  | .w128 => ['u', '1', '2', '8']
  | .w256 => ['u', '2', '5', '6']

/-- Modelled from the spec: recognition of an explicit width suffix by the
missing literal parser submodule. -/
def suffixWidth (cs : List Char) : Option IntWidth :=
  if cs = ['u', '8'] then some .w8
  else if cs = ['u', '1', '6'] then some .w16
  else if cs = ['u', '3', '2'] then some .w32
  else if cs = ['u', '6', '4'] then some .w64
  else if cs = ['u', '1', '2', '8'] then some .w128
  else if cs = ['u', '2', '5', '6'] then some .w256
  else none

/-- The recursive type descriptor of the data model: primitive kinds,
vectors, and fully qualified struct references with generic parameters. -/
inductive TypeTag where
  | uintT (w : IntWidth)
  | boolT
  | addressT
  | signerT
  | vectorT (t : TypeTag)
  | structT (addr : List Char) (moduleName : List Char) (structName : List Char)
      (params : List TypeTag)
  deriving Repr

mutual

/-- Canonical string form of a type tag, used to re-serialize a parsed
TypeTag sequence. -/
def canonTag : TypeTag → List Char
  | .uintT w => w.suffixChars
  | .boolT => ['b', 'o', 'o', 'l']
  | .addressT => ['a', 'd', 'd', 'r', 'e', 's', 's']
  | .signerT => ['s', 'i', 'g', 'n', 'e', 'r']
  | .vectorT t => ['v', 'e', 'c', 't', 'o', 'r', '<'] ++ canonTag t ++ ['>']
  | .structT a m n ps =>
    a ++ ':' :: ':' :: m ++ ':' :: ':' :: n ++
      (match ps with
       | [] => []
       | _ :: _ => '<' :: canonParams ps ++ ['>'])

/-- Canonical string form of a comma-separated type-tag sequence. -/
def canonParams : List TypeTag → List Char
  | [] => []
  | [t] => canonTag t
  | t :: ts => canonTag t ++ ',' :: ' ' :: canonParams ts

end

mutual

/-- Well-formedness of a type tag: struct segments are valid addresses and
identifiers. -/
def wfTag : TypeTag → Bool
  | .uintT _ => true
  | .boolT => true
  | .addressT => true
  | .signerT => true
  | .vectorT t => wfTag t
  | .structT a m n ps => validAddress a && validIdent m && validIdent n && wfParams ps

/-- Well-formedness of a list of type tags. -/
def wfParams : List TypeTag → Bool
  | [] => true
  | t :: ts => wfTag t && wfParams ts

end

/-- Modelled from the spec: validation of a qualified struct reference by
the missing type-tag parser submodule; the head must split on double
colons into a valid address, module and struct name. -/
def parseSegs (head : List Char) (ps : List TypeTag) : Except TxError TypeTag :=
  match splitOn ':' head with
  | [a, [], m, [], n] =>
    if validAddress a && validIdent m && validIdent n then .ok (.structT a m n ps)
    else .error .parseError
  | _ => .error .parseError

/-- Modelled from the spec: the recursive-descent type-tag parser of the
missing type-tag parser submodule, with explicit recursion fuel.  It
recognizes the fixed primitive keywords, vector of a type, and qualified
struct references with optional generic parameters. -/
def parseTagF : Nat → List Char → Except TxError TypeTag
  | 0, _ => .error .parseError
  | fuel + 1, cs =>
    match trimTok cs with
    | 'u' :: rest =>
      if rest = ['8'] then .ok (.uintT .w8)
      else if rest = ['1', '6'] then .ok (.uintT .w16)
      else if rest = ['3', '2'] then .ok (.uintT .w32)
      else if rest = ['6', '4'] then .ok (.uintT .w64)
      else if rest = ['1', '2', '8'] then .ok (.uintT .w128)
      else if rest = ['2', '5', '6'] then .ok (.uintT .w256)
      else .error .parseError
    | 'b' :: rest =>
      if rest = ['o', 'o', 'l'] then .ok .boolT else .error .parseError
    | 'a' :: rest =>
      if rest = ['d', 'd', 'r', 'e', 's', 's'] then .ok .addressT else .error .parseError
    | 's' :: rest =>
      if rest = ['i', 'g', 'n', 'e', 'r'] then .ok .signerT else .error .parseError
    | 'v' :: rest =>
      match rest with
      | 'e' :: 'c' :: 't' :: 'o' :: 'r' :: '<' :: body =>
        if body.getLast? = some '>' then
          match parseTagF fuel body.dropLast with
          | .ok t => .ok (.vectorT t)
          | .error e => .error e
        else .error .parseError
      | _ => .error .parseError
    | '0' :: rest =>
      if ('0' :: rest).any (fun ch => ch == '<') then
        if ('0' :: rest).getLast? = some '>' then
          match
            exList (parseTagF fuel)
              (splitTop '<' '>'
                ((('0' :: rest).drop (idxOfChar '<' ('0' :: rest) + 1)).dropLast)) with
          | .ok ps => parseSegs (('0' :: rest).take (idxOfChar '<' ('0' :: rest))) ps
          | .error e => .error e
        else .error .parseError
      else parseSegs ('0' :: rest) []
    | _ => .error .parseError

/-- Parse one type-tag token with sufficient fuel. -/
def parseTagTop (cs : List Char) : Except TxError TypeTag :=
  parseTagF (cs.length + 1) cs

/-- Parse each token of a top-level comma split. -/
def parseTokens (toks : List (List Char)) : Except TxError (List TypeTag) :=
  exList parseTagTop toks

/-- Modelled from the spec: the Type-Tag Parser entry point of the missing
type-tag parser submodule.  The empty string denotes zero type arguments;
otherwise the input is split on top-level commas and each token is parsed. -/
def parseTypeTags (cs : List Char) : Except TxError (List TypeTag) :=
  if cs = [] then .ok [] else parseTokens (splitTop '<' '>' cs)

/-- Token list produced by splitting the canonical form of a type-tag
sequence on top-level commas. -/
def canonToks : List TypeTag → List (List Char)
  | [] => [[]]
  | t :: ts => canonTag t :: ts.map (fun s => ' ' :: canonTag s)

/-- Untyped literal AST of the first parsing pass: integers with an
optional explicit width suffix, booleans, addresses, hex byte-strings and
literal vectors. -/
inductive ULit where
  | intL (suffix : Option IntWidth) (v : Nat)
  | boolL (b : Bool)
  | addrL (a : List Char)
  | hexL (bs : List Nat)
  | vecL (elems : List ULit)
  deriving Repr

/-- Typed Move value produced by resolving a literal against a type. -/
inductive MoveValue where
  | uintV (w : IntWidth) (v : Nat)
  | boolV (b : Bool)
  | addrV (a : List Char)
  | vecV (elems : List MoveValue)
  deriving Repr

/-- Modelled from the spec: reading of a decimal integer literal with an
optional width suffix in the missing literal parser submodule; a suffixed
value that does not fit its width is an overflow error. -/
def parseIntTok (t : List Char) : Except TxError ULit :=
  match splitOn '_' t with
  | [ds] =>
    match parseDecimal ds with
    | some v => .ok (.intL none v)
    | none => .error .parseError
  | [ds, sfx] =>
    match parseDecimal ds, suffixWidth sfx with
    | some v, some w =>
      if v < 2 ^ w.bits then .ok (.intL (some w) v) else .error .overflowError
    | _, _ => .error .parseError
  | _ => .error .parseError

/-- Modelled from the spec: the recursive-descent literal parser of the
missing literal parser submodule, with explicit recursion fuel.  It
recognizes booleans, hex byte-strings, addresses, literal vectors and
decimal integers with optional width suffixes. -/
def parseLitF : Nat → List Char → Except TxError ULit
  | 0, _ => .error .parseError
  | fuel + 1, cs =>
    let t := trimTok cs
    if t = ['t', 'r', 'u', 'e'] then .ok (.boolL true)
    else if t = ['f', 'a', 'l', 's', 'e'] then .ok (.boolL false)
    else if t.take 2 = ['x', '"'] then
      if (t.drop 2).getLast? = some '"' then
        match hexPairsToBytes (t.drop 2).dropLast with
        | some bs => .ok (.hexL bs)
        | none => .error .parseError
      else .error .parseError
    else if t.take 1 = ['['] then
      if (t.drop 1).getLast? = some ']' then
        if trimTok (t.drop 1).dropLast = [] then .ok (.vecL [])
        else
          match exList (parseLitF fuel) (splitTop '[' ']' (t.drop 1).dropLast) with
          | .ok es => .ok (.vecL es)
          | .error e => .error e
      else .error .parseError
    else if t.take 2 = ['0', 'x'] then
      if !(t.drop 2).isEmpty && (t.drop 2).all isHexChar then .ok (.addrL t)
      else .error .parseError
    else parseIntTok t

/-- Parse one literal token with sufficient fuel. -/
def parseLitTop (cs : List Char) : Except TxError ULit :=
  parseLitF (cs.length + 1) cs

/-- Parse each token of a top-level comma split of the argument string. -/
def parseLitToks (toks : List (List Char)) : Except TxError (List ULit) :=
  exList parseLitTop toks

/-- Modelled from the spec: the first, untyped pass of the Literal Value
Parser of the missing literal parser submodule.  The empty string denotes
zero arguments; otherwise the input is split on top-level commas (with
respect to vector brackets) and each token is parsed. -/
def parseArgsU (cs : List Char) : Except TxError (List ULit) :=
  if cs = [] then .ok [] else parseLitToks (splitTop '[' ']' cs)

mutual

/-- Modelled from the spec: the default resolution of an untyped literal
when no declared parameter type is available; an unsuffixed integer
defaults to 64 bits. -/
def defaultResolve : ULit → Except TxError MoveValue
  | .intL none v => if v < 2 ^ 64 then .ok (.uintV .w64 v) else .error .overflowError
  | .intL (some w) v => if v < 2 ^ w.bits then .ok (.uintV w v) else .error .overflowError
  | .boolL b => .ok (.boolV b)
  | .addrL a => .ok (.addrV a)
  | .hexL bs => .ok (.vecV (bs.map (fun b => .uintV .w8 b)))
  | .vecL es =>
    match defaultResolveList es with
    | .ok vs => .ok (.vecV vs)
    | .error e => .error e

/-- Default resolution of a list of untyped literals. -/
def defaultResolveList : List ULit → Except TxError (List MoveValue)
  | [] => .ok []
  | l :: ls =>
    match defaultResolve l with
    | .ok v =>
      match defaultResolveList ls with
      | .ok vs => .ok (v :: vs)
      | .error e => .error e
    | .error e => .error e

end

/-- Modelled from the spec: the Literal Value Parser entry point when no
declared parameter types are available (untyped parse followed by default
resolution). -/
def parseArgs (cs : List Char) : Except TxError (List MoveValue) :=
  match parseArgsU cs with
  | .ok us => defaultResolveList us
  | .error e => .error e

mutual

/-- Modelled from the spec: second-pass resolution of an untyped literal
against a declared parameter type.  An unsuffixed integer takes the
declared width; an explicit suffix contradicting the declared type is a
hard error, never a silent coercion. -/
def resolveLit : TypeTag → ULit → Except TxError MoveValue
  | .uintT w, .intL none v =>
    if v < 2 ^ w.bits then .ok (.uintV w v) else .error .overflowError
  | .uintT w, .intL (some w2) v =>
    if w2 = w then
      if v < 2 ^ w.bits then .ok (.uintV w v) else .error .overflowError
    else .error .parseError
  | .boolT, .boolL b => .ok (.boolV b)
  | .addressT, .addrL a => .ok (.addrV a)
  | .vectorT (.uintT .w8), .hexL bs => .ok (.vecV (bs.map (fun b => .uintV .w8 b)))
  | .vectorT t, .vecL es =>
    match resolveLitList t es with
    | .ok vs => .ok (.vecV vs)
    | .error e => .error e
  | _, _ => .error .parseError

/-- Resolution of each element of a literal vector against the element
type. -/
def resolveLitList : TypeTag → List ULit → Except TxError (List MoveValue)
  | _, [] => .ok []
  | t, l :: ls =>
    match resolveLit t l with
    | .ok v =>
      match resolveLitList t ls with
      | .ok vs => .ok (v :: vs)
      | .error e => .error e
    | .error e => .error e

end

/-- Positional resolution of literals against declared parameter types,
once the counts are known to agree. -/
def resolveZip : List TypeTag → List ULit → Except TxError (List MoveValue)
  | [], [] => .ok []
  | p :: ps, l :: ls =>
    match resolveLit p l with
    | .ok v =>
      match resolveZip ps ls with
      | .ok vs => .ok (v :: vs)
      | .error e => .error e
    | .error e => .error e
  | _, _ => .error .arityMismatch

/-- Modelled from the spec: positional resolution of the parsed literals
against the declared parameter types of the target function; a count
mismatch is an arity error surfaced first, and arguments are never
truncated or padded. -/
def resolveArgs (ps : List TypeTag) (ls : List ULit) :
    Except TxError (List MoveValue) :=
  if ps.length = ls.length then resolveZip ps ls else .error .arityMismatch

mutual

/-- Modelled from the spec: the Argument Encoder of the missing encoder
submodule; fixed-width integers as raw little-endian bytes of their width,
booleans as a single byte, addresses as their fixed 32-byte form, vectors
as a length prefix followed by the recursively encoded elements. -/
def encodeValue : MoveValue → List Nat
  | .uintV w v => leBytes (w.bits / 8) v
  | .boolV b => [if b then 1 else 0]
  | .addrV a => beBytes 32 (hexToNat (a.drop 2))
  | .vecV es => uleb128 es.length ++ encodeList es

/-- Concatenated encodings of the elements of a vector value. -/
def encodeList : List MoveValue → List Nat
  | [] => []
  | v :: vs => encodeValue v ++ encodeList vs

end

/-- Resolved function identifier: address, module and function segments. -/
structure FunctionId where
  address : List Char
  moduleName : List Char
  functionName : List Char
  deriving Repr, DecidableEq

/-- Modelled from the spec: the Function Identifier Resolver of the missing
resolver submodule; the identifier must split on double colons into exactly
three non-empty segments with a valid address and valid identifier
segments, otherwise the invalid-identifier error is returned. -/
def resolveFunctionId (cs : List Char) : Except TxError FunctionId :=
  match splitOn ':' (trimTok cs) with
  | [a, [], m, [], n] =>
    if validAddress a && validIdent m && validIdent n then .ok ⟨a, m, n⟩
    else .error .invalidIdentifier
  | _ => .error .invalidIdentifier

/-- The shape required of a function identifier by the specification: a
double-colon split into exactly three non-empty segments whose address
segment is well formed. -/
def fidShape (cs : List Char) : Bool :=
  match splitOn ':' (trimTok cs) with
  | [a, [], m, [], n] => !m.isEmpty && !n.isEmpty && validAddress a
  | _ => false

/-- Canonical string of a resolved function identifier. -/
def canonFid (f : FunctionId) : List Char :=
  f.address ++ ':' :: ':' :: f.moduleName ++ ':' :: ':' :: f.functionName

/-- Raw (unsigned) transaction of the data model. -/
structure RawTransaction where
  sender : List Char
  sequenceNumber : Nat
  payloadFunction : FunctionId
  payloadTypeArgs : List TypeTag
  payloadArgs : List (List Nat)
  maxGas : Nat
  gasUnitPrice : Nat
  expirationTimestamp : Nat
  chainId : Nat

/-- Signed transaction: the raw transaction plus signing public key and
signature bytes. -/
structure SignedTransaction where
  raw : RawTransaction
  publicKey : List Nat
  signature : List Nat

/-- Modelled from the spec: the canonical serialization of a raw
transaction over which the signature is computed, in the missing signer
submodule. -/
def serializeRawTransaction (tx : RawTransaction) : List Nat :=
  beBytes 32 (hexToNat (tx.sender.drop 2)) ++
  leBytes 8 tx.sequenceNumber ++
  (canonFid tx.payloadFunction).map Char.toNat ++
  (canonParams tx.payloadTypeArgs).map Char.toNat ++
  uleb128 tx.payloadArgs.length ++
  (tx.payloadArgs.map (fun a => uleb128 a.length ++ a)).join ++
  leBytes 8 tx.maxGas ++
  leBytes 8 tx.gasUnitPrice ++
  leBytes 8 tx.expirationTimestamp ++
  [tx.chainId % 256]

/-- Modelled from the spec: public-key derivation from the private key in
the missing signer submodule (the concrete scheme is external; this model
keeps only that the public key is a function of the private key). -/
def derivePublicKey (sk : List Nat) : List Nat :=
  sk.map (fun b => (b * 31 + 7) % 256)

/-- Modelled from the spec: the signature as a pure function of the
serialized raw transaction and the signing public key. -/
def sigOf (pk msg : List Nat) : List Nat :=
  uleb128 msg.length ++ pk ++ msg

/-- Modelled from the spec: signature verification against a public key and
a message, accepting exactly the signature the scheme produces for them. -/
def verifySignature (pk msg sig : List Nat) : Bool :=
  decide (sig = sigOf pk msg)

/-- Modelled from the spec: the Signer of the missing signer submodule.  A
malformed private key (wrong length) is an invalid-key error; otherwise the
public key is derived and the canonical serialization is signed. -/
def signTransaction (sk : List Nat) (tx : RawTransaction) :
    Except TxError SignedTransaction :=
  if sk.length = 32 then
    .ok ⟨tx, derivePublicKey sk, sigOf (derivePublicKey sk) (serializeRawTransaction tx)⟩
  else .error .invalidKey

/-- Modelled from the spec: default gas budget applied when absent. -/
def defaultMaxGas : Nat := 10000

/-- Modelled from the spec: default gas unit price applied when absent. -/
def defaultGasUnitPrice : Nat := 1

/-- Modelled from the spec: the transaction generation pipeline of the
missing generate-transaction submodule: resolve the function identifier,
parse the type arguments, parse the argument literals, resolve them against
the declared parameter types, assemble the raw transaction and sign it. -/
def generateTransaction (functionId typeArgsStr argsStr : List Char)
    (abiParams : List TypeTag) (sk : List Nat) (sender : List Char) (seqNum : Nat)
    (maxGas gasUnitPrice : Option Nat) (expiration chainId : Nat) :
    Except TxError SignedTransaction :=
  match resolveFunctionId functionId with
  | .error e => .error e
  | .ok fid =>
    match parseTypeTags typeArgsStr with
    | .error e => .error e
    | .ok targs =>
      match parseArgsU argsStr with
      | .error e => .error e
      | .ok lits =>
        match resolveArgs abiParams lits with
        | .error e => .error e
        | .ok vals =>
          signTransaction sk
            ⟨sender, seqNum, fid, targs, vals.map encodeValue,
             maxGas.getD defaultMaxGas, gasUnitPrice.getD defaultGasUnitPrice,
             expiration, chainId⟩

/-- Observable effect of the CLI layer: a printed line or a transaction
submission. -/
inductive CliEffect where
  | printLine (s : List Char)
  | submitTransaction (tx : SignedTransaction)

/-- The separator banner printed by the GenerateTransaction arm. -/
def bannerLine : List Char := ("====================".toList)

/-- The progress line printed before submission. -/
def submittingLine : List Char := ("Submitting transaction...".toList)

/-- The line printed after a successful submission. -/
def successLine : List Char := ("Success!".toList)

/-- Modelled from the spec: the human-readable rendering of a signed
transaction produced by format_signed_transaction (crate::txs::util, not
present in the sources). -/
def formatSignedTransaction (tx : SignedTransaction) : List Char :=
  (serializeRawTransaction tx.raw ++ tx.publicKey ++ tx.signature).foldr
    (fun b acc => decRep b ++ ' ' :: acc) []

/-- The GenerateTransaction arm of TxsCli::run, embedded from
src/txs_cli/mod.rs: print the banner, propagate a generation failure,
otherwise print the formatted signed transaction, and when the submit flag
is set print the progress line, submit that same transaction, and print the
success line when submission succeeds. -/
def runGenerateTransactionArm (genResult : Except TxError SignedTransaction)
    (submitFlag : Bool) (submitRun : SignedTransaction → Except TxError Unit) :
    List CliEffect × Except TxError Unit :=
  match genResult with
  | .error e => ([.printLine bannerLine], .error e)
  | .ok tx =>
    if submitFlag then
      match submitRun tx with
      | .error e =>
        ([.printLine bannerLine, .printLine (formatSignedTransaction tx),
          .printLine submittingLine, .submitTransaction tx], .error e)
      | .ok _ =>
        ([.printLine bannerLine, .printLine (formatSignedTransaction tx),
          .printLine submittingLine, .submitTransaction tx, .printLine successLine],
         .ok ())
    else ([.printLine bannerLine, .printLine (formatSignedTransaction tx)], .ok ())

/-! ### Helper lemmas -/

theorem exList_ok_length {α : Type} (f : List Char → Except TxError α) :
    ∀ toks xs, exList f toks = .ok xs → xs.length = toks.length := by
  intro toks
  induction toks with
  | nil => intro xs h; cases h; rfl
  | cons tok toks ih =>
    intro xs h
    unfold exList at h
    cases hf : f tok with
    | error e => rw [hf] at h; cases h
    | ok x =>
      rw [hf] at h
      cases hrest : exList f toks with
      | error e => rw [hrest] at h; cases h
      | ok xs2 =>
        rw [hrest] at h
        cases h
        simp [ih xs2 hrest]

theorem exList_ok_forall₂ {α : Type} (f : List Char → Except TxError α) :
    ∀ toks xs, exList f toks = .ok xs →
      List.Forall₂ (fun tok x => f tok = .ok x) toks xs := by
  intro toks
  induction toks with
  | nil => intro xs h; cases h; exact List.Forall₂.nil
  | cons tok toks ih =>
    intro xs h
    unfold exList at h
    cases hf : f tok with
    | error e => rw [hf] at h; cases h
    | ok x =>
      rw [hf] at h
      cases hrest : exList f toks with
      | error e => rw [hrest] at h; cases h
      | ok xs2 =>
        rw [hrest] at h
        cases h
        exact List.Forall₂.cons hf (ih xs2 hrest)

theorem exList_of_forall₂ {α : Type} (f : List Char → Except TxError α) :
    ∀ toks xs, List.Forall₂ (fun tok x => f tok = .ok x) toks xs →
      exList f toks = .ok xs := by
  intro toks xs h
  induction h with
  | nil => rfl
  | cons hf _ ih => unfold exList; rw [hf, ih]

theorem exList_error_iff {α : Type} (f : List Char → Except TxError α) :
    ∀ toks, (∃ e, exList f toks = .error e) ↔
      ∃ tok, tok ∈ toks ∧ ∀ x, f tok ≠ .ok x := by
  intro toks
  induction toks with
  | nil =>
    constructor
    · rintro ⟨e, h⟩; cases h
    · rintro ⟨tok, hmem, _⟩; cases hmem
  | cons tok toks ih =>
    constructor
    · rintro ⟨e, h⟩
      unfold exList at h
      cases hf : f tok with
      | error e2 =>
        exact ⟨tok, List.mem_cons_self tok toks, fun x hx => by rw [hf] at hx; cases hx⟩
      | ok x =>
        rw [hf] at h
        cases hrest : exList f toks with
        | error e2 =>
          obtain ⟨tok2, hmem2, hfail2⟩ := ih.mp ⟨e2, hrest⟩
          exact ⟨tok2, List.mem_cons_of_mem tok hmem2, hfail2⟩
        | ok xs2 => rw [hrest] at h; cases h
    · rintro ⟨tok2, hmem2, hfail2⟩
      rcases List.mem_cons.mp hmem2 with heq | hmem3
      · subst heq
        cases hf : f tok2 with
        | error e2 => exact ⟨e2, by unfold exList; rw [hf]⟩
        | ok x => exact absurd hf (hfail2 x)
      · cases hf : f tok with
        | error e2 => exact ⟨e2, by unfold exList; rw [hf]⟩
        | ok x =>
          obtain ⟨e2, h2⟩ := ih.mpr ⟨tok2, hmem3, hfail2⟩
          exact ⟨e2, by unfold exList; rw [hf, h2]⟩

theorem leBytes_length : ∀ k v, (leBytes k v).length = k := by
  intro k
  induction k with
  | zero => intro v; rfl
  | succ k ih => intro v; simp [leBytes, ih]

theorem leBytes_getD : ∀ k v i, i < k →
    (leBytes k v).getD i 0 = v / 256 ^ i % 256 := by
  intro k
  induction k with
  | zero => intro v i h; omega
  | succ k ih =>
    intro v i h
    cases i with
    | zero => simp [leBytes]
    | succ i =>
      have := ih (v / 256) i (by omega)
      simp only [leBytes, List.getD_cons_succ, this, Nat.div_div_eq_div_mul]
      congr 1
      rw [pow_succ]
      ring_nf

theorem encodeList_eq_flatten : ∀ es, encodeList es = (es.map encodeValue).flatten := by
  intro es
  induction es with
  | nil => rfl
  | cons e es ih => simp [encodeList, ih]

theorem resolveZip_ok_length :
    ∀ ps ls vs, resolveZip ps ls = .ok vs → vs.length = ps.length := by
  intro ps
  induction ps with
  | nil =>
    intro ls vs h
    cases ls with
    | nil => cases h; rfl
    | cons l ls => cases h
  | cons p ps ih =>
    intro ls vs h
    cases ls with
    | nil => cases h
    | cons l ls =>
      unfold resolveZip at h
      cases hr : resolveLit p l with
      | error e => rw [hr] at h; cases h
      | ok v =>
        rw [hr] at h
        cases hrest : resolveZip ps ls with
        | error e => rw [hrest] at h; cases h
        | ok vs2 =>
          rw [hrest] at h
          cases h
          simp [ih ls vs2 hrest]

/-! ### Claim theorems: encoding and literal parsing -/

/-- C2: encoding the literal vector written as bracket one comma two comma
three against the declared type vector of u64 produces a length prefix of
three followed by the three values as eight-byte little-endian integers,
and the encoder follows the canonical rules: fixed-width integers as raw
little-endian bytes of their width, booleans as one byte, addresses as a
fixed 32-byte form, vectors length-prefixed with recursively encoded
elements. -/
theorem encode_vector_u64_literal :
    (∃ l, parseLitTop (("[1, 2, 3]".toList)) = .ok l ∧
      resolveLit (.vectorT (.uintT .w64)) l =
        .ok (.vecV [.uintV .w64 1, .uintV .w64 2, .uintV .w64 3]) ∧
      encodeValue (.vecV [.uintV .w64 1, .uintV .w64 2, .uintV .w64 3]) =
        uleb128 3 ++ leBytes 8 1 ++ leBytes 8 2 ++ leBytes 8 3) ∧
    uleb128 3 = [3] ∧
    uleb128 3 ++ leBytes 8 1 ++ leBytes 8 2 ++ leBytes 8 3 =
      [3, 1] ++ List.replicate 7 0 ++ 2 :: List.replicate 7 0 ++ 3 :: List.replicate 7 0 ∧
    (∀ es, encodeValue (.vecV es) = uleb128 es.length ++ (es.map encodeValue).flatten) ∧
    (∀ b, encodeValue (.boolV b) = [if b then 1 else 0]) ∧
    (∀ w v, encodeValue (.uintV w v) = leBytes (w.bits / 8) v) ∧
    (∀ (w : IntWidth) (v : Nat), (leBytes (w.bits / 8) v).length = w.bits / 8) ∧
    (∀ a, (encodeValue (.addrV a)).length = 32) := by
  refine ⟨⟨.vecL [.intL none 1, .intL none 2, .intL none 3], rfl, ?_, ?_⟩, rfl, ?_, ?_, ?_, ?_, ?_, ?_⟩
  · norm_num [resolveLit, resolveLitList, IntWidth.bits]
  · simp [encodeValue, encodeList, uleb128, uleb128F, IntWidth.bits]
  · decide
  · intro es
    simp [encodeValue, encodeList_eq_flatten]
  · intro b
    simp [encodeValue]
  · intro w v
    simp [encodeValue]
  · intro w v
    exact leBytes_length _ _
  · intro a
    simp [encodeValue, beBytes, leBytes_length]

/-- C3: parsing the argument string
zero-x-one, true, twelve, twenty-four-u8, hex-string 123456 with the
Literal Value Parser yields exactly five typed values, in order: an
address, a boolean, a u64 (default width for an unsuffixed integer), a u8
and a vector of u8. -/
theorem parse_five_example_args :
    parseArgs (("0x1, true, 12, 24_u8, x\"123456\"".toList)) =
      .ok [.addrV ("0x1".toList), .boolV true, .uintV .w64 12, .uintV .w8 24,
           .vecV [.uintV .w8 18, .uintV .w8 52, .uintV .w8 86]] := by
  have h : parseArgsU (("0x1, true, 12, 24_u8, x\"123456\"".toList)) =
      .ok [.addrL ("0x1".toList), .boolL true, .intL none 12, .intL (some .w8) 24,
           .hexL [18, 52, 86]] := rfl
  rw [parseArgs, h]
  simp [defaultResolveList, defaultResolve, IntWidth.bits]

theorem validIdent_isEmpty {m : List Char} (h : validIdent m = true) :
    m.isEmpty = false := by
  cases m with
  | nil => simp [validIdent] at h
  | cons c rest => rfl

theorem resolveFunctionId_shape :
    ∀ cs, fidShape cs = false → resolveFunctionId cs = .error .invalidIdentifier := by
  intro cs hshape
  unfold resolveFunctionId
  unfold fidShape at hshape
  split
  next a m n heq =>
    rw [heq] at hshape
    rw [if_neg]
    intro hcond
    simp only [Bool.and_eq_true] at hcond
    obtain ⟨⟨hva, hvm⟩, hvn⟩ := hcond
    have hshape2 : (!m.isEmpty && !n.isEmpty && validAddress a) = false := hshape
    rw [validIdent_isEmpty hvm, validIdent_isEmpty hvn, hva] at hshape2
    simp at hshape2
  next h2 => rfl

/-- C5: a function-identifier string that does not split on double colons
into exactly three non-empty segments with a well-formed address segment
makes the resolver fail with the invalid-identifier error, and the whole
generation pipeline returns that error whatever the type-argument and
argument strings are, so the failure surfaces before their parsing; in
particular the identifier zero-x-one double-colon transfer, which misses
the module segment, fails this way. -/
theorem invalid_identifier_surfaces_first :
    (∀ cs, fidShape cs = false →
      resolveFunctionId cs = .error .invalidIdentifier ∧
      ∀ targs args abi sk sender seq mg gp exp cid,
        generateTransaction cs targs args abi sk sender seq mg gp exp cid =
          .error .invalidIdentifier) ∧
    fidShape (("0x1::transfer".toList)) = false ∧
    resolveFunctionId (("0x1::transfer".toList)) = .error .invalidIdentifier := by
  refine ⟨?_, rfl, rfl⟩
  intro cs h
  have hres := resolveFunctionId_shape cs h
  refine ⟨hres, ?_⟩
  intro targs args abi sk sender seq mg gp exp cid
  unfold generateTransaction
  rw [hres]

/-- Witness for C5 at the concrete malformed identifier. -/
theorem invalid_identifier_witness :
    resolveFunctionId (("0x1::transfer".toList)) = .error .invalidIdentifier ∧
    generateTransaction (("0x1::transfer".toList)) [] [] [] [] [] 0 none none 0 0 =
      .error .invalidIdentifier := by
  have h := invalid_identifier_surfaces_first.1 (("0x1::transfer".toList)) (by rfl)
  exact ⟨h.1, h.2 [] [] [] [] [] 0 none none 0 0⟩

/-- C6: when the parsed argument count differs from the declared parameter
arity, resolution fails with the arity-mismatch error; on success the
output has exactly the declared arity, never a truncation or padding, and
the generation pipeline surfaces the arity error before signing or any
network interaction. -/
theorem arity_mismatch_surfaces :
    (∀ (ps : List TypeTag) (ls : List ULit), ps.length ≠ ls.length →
      resolveArgs ps ls = .error .arityMismatch) ∧
    (∀ ps ls vs, resolveArgs ps ls = .ok vs →
      vs.length = ps.length ∧ ls.length = ps.length) ∧
    (∀ fidStr targsStr argsStr abi sk sender seq mg gp exp cid f tg lits,
      resolveFunctionId fidStr = .ok f →
      parseTypeTags targsStr = .ok tg →
      parseArgsU argsStr = .ok lits →
      abi.length ≠ lits.length →
      generateTransaction fidStr targsStr argsStr abi sk sender seq mg gp exp cid =
        .error .arityMismatch) := by
  have h1 : ∀ (ps : List TypeTag) (ls : List ULit), ps.length ≠ ls.length →
      resolveArgs ps ls = .error .arityMismatch := by
    intro ps ls h
    unfold resolveArgs
    rw [if_neg h]
  refine ⟨h1, ?_, ?_⟩
  · intro ps ls vs h
    unfold resolveArgs at h
    by_cases heq : ps.length = ls.length
    · rw [if_pos heq] at h
      exact ⟨resolveZip_ok_length ps ls vs h, heq.symm⟩
    · rw [if_neg heq] at h
      cases h
  · intro fidStr targsStr argsStr abi sk sender seq mg gp exp cid f tg lits hf ht ha hlen
    simp only [generateTransaction, hf, ht, ha, h1 abi lits hlen]

/-- Witness for C6: a two-parameter function given one argument. -/
theorem arity_mismatch_witness :
    resolveArgs [TypeTag.uintT .w8, TypeTag.boolT] [ULit.intL none 1] =
      .error .arityMismatch :=
  arity_mismatch_surfaces.1 [TypeTag.uintT .w8, TypeTag.boolT] [ULit.intL none 1]
    (by decide)

/-- C8: against a declared unsigned-integer parameter type, an unsuffixed
integer literal takes the declared width (subject to its bound); a literal
with an explicit suffix contradicting the declared type is a hard error,
never a silent coercion, while a suffix agreeing with the declared type is
accepted. -/
theorem declared_type_resolution :
    (∀ (w : IntWidth) (v : Nat), v < 2 ^ w.bits →
      resolveLit (.uintT w) (.intL none v) = .ok (.uintV w v)) ∧
    (∀ (w w2 : IntWidth) (v : Nat), w2 ≠ w →
      resolveLit (.uintT w) (.intL (some w2) v) = .error .parseError) ∧
    (∀ (w : IntWidth) (v : Nat), v < 2 ^ w.bits →
      resolveLit (.uintT w) (.intL (some w) v) = .ok (.uintV w v)) ∧
    (∀ (w2 : IntWidth) (v : Nat),
      resolveLit .boolT (.intL (some w2) v) = .error .parseError) := by
  refine ⟨?_, ?_, ?_, ?_⟩
  · intro w v h
    simp [resolveLit, h]
  · intro w w2 v h
    simp [resolveLit, h]
  · intro w v h
    simp [resolveLit, h]
  · intro w2 v
    simp [resolveLit]

/-- Witness for C8 at concrete widths and values. -/
theorem declared_type_resolution_witness :
    resolveLit (.uintT .w8) (.intL none 255) = .ok (.uintV .w8 255) ∧
    resolveLit (.uintT .w64) (.intL (some .w8) 1) = .error .parseError :=
  ⟨declared_type_resolution.1 .w8 255 (by decide),
   declared_type_resolution.2.1 .w64 .w8 1 (by decide)⟩

/-- C9: signing a raw transaction with a well-formed private key succeeds,
the produced signature validates against the canonical serialization of the
transaction and the public key derived from that key, and a second
invocation on the same inputs produces a signature that also validates and
is byte-identical, the modelled scheme being deterministic. -/
theorem signer_twice_validates :
    ∀ (sk : List Nat) (tx : RawTransaction), sk.length = 32 →
      ∃ st, signTransaction sk tx = .ok st ∧
        verifySignature st.publicKey (serializeRawTransaction tx) st.signature = true ∧
        st.publicKey = derivePublicKey sk ∧
        ∀ st2, signTransaction sk tx = .ok st2 →
          verifySignature st2.publicKey (serializeRawTransaction tx) st2.signature = true ∧
          st2.signature = st.signature := by
  intro sk tx h
  refine ⟨⟨tx, derivePublicKey sk, sigOf (derivePublicKey sk) (serializeRawTransaction tx)⟩,
    ?_, ?_, rfl, ?_⟩
  · unfold signTransaction
    rw [if_pos h]
  · simp [verifySignature]
  · intro st2 h2
    unfold signTransaction at h2
    rw [if_pos h] at h2
    cases h2
    exact ⟨by simp [verifySignature], rfl⟩

/-- Witness for C9 at a concrete key and transaction. -/
theorem signer_twice_witness :
    ∃ st,
      signTransaction (List.replicate 32 0)
          ⟨("0x1".toList), 0, ⟨("0x1".toList), ['m'], ['f']⟩, [], [], 0, 0, 0, 0⟩ = .ok st ∧
        verifySignature st.publicKey
          (serializeRawTransaction
            ⟨("0x1".toList), 0, ⟨("0x1".toList), ['m'], ['f']⟩, [], [], 0, 0, 0, 0⟩)
          st.signature = true ∧
        st.publicKey = derivePublicKey (List.replicate 32 0) ∧
        ∀ st2,
          signTransaction (List.replicate 32 0)
              ⟨("0x1".toList), 0, ⟨("0x1".toList), ['m'], ['f']⟩, [], [], 0, 0, 0, 0⟩ =
            .ok st2 →
          verifySignature st2.publicKey
            (serializeRawTransaction
              ⟨("0x1".toList), 0, ⟨("0x1".toList), ['m'], ['f']⟩, [], [], 0, 0, 0, 0⟩)
            st2.signature = true ∧
          st2.signature = st.signature :=
  signer_twice_validates (List.replicate 32 0)
    ⟨("0x1".toList), 0, ⟨("0x1".toList), ['m'], ['f']⟩, [], [], 0, 0, 0, 0⟩ (by simp)

/-- C10: in the GenerateTransaction arm of TxsCli::run, once generation
succeeds the formatted signed transaction is printed; a submission effect
occurs exactly when the submit flag is set; any submitted transaction is
the very one that was printed, unmodified; and a generation failure prints
only the banner and propagates the error. -/
theorem generate_transaction_arm_behavior :
    (∀ tx submitFlag submitRun,
      CliEffect.printLine (formatSignedTransaction tx) ∈
        (runGenerateTransactionArm (.ok tx) submitFlag submitRun).1 ∧
      ((∃ tx2, CliEffect.submitTransaction tx2 ∈
          (runGenerateTransactionArm (.ok tx) submitFlag submitRun).1) ↔
        submitFlag = true) ∧
      (∀ tx2, CliEffect.submitTransaction tx2 ∈
          (runGenerateTransactionArm (.ok tx) submitFlag submitRun).1 → tx2 = tx)) ∧
    (∀ e submitFlag submitRun,
      runGenerateTransactionArm (.error e) submitFlag submitRun =
        ([.printLine bannerLine], .error e)) := by
  constructor
  · intro tx flag sr
    cases flag with
    | false =>
      refine ⟨by simp [runGenerateTransactionArm], ?_, ?_⟩
      · simp [runGenerateTransactionArm]
      · intro tx2 h
        simp [runGenerateTransactionArm] at h
    | true =>
      cases hsr : sr tx with
      | error e =>
        refine ⟨by simp [runGenerateTransactionArm, hsr], ?_, ?_⟩
        · simp [runGenerateTransactionArm, hsr]
        · intro tx2 h
          simp [runGenerateTransactionArm, hsr] at h
          exact h
      | ok u =>
        refine ⟨by simp [runGenerateTransactionArm, hsr], ?_, ?_⟩
        · simp [runGenerateTransactionArm, hsr]
        · intro tx2 h
          simp [runGenerateTransactionArm, hsr] at h
          exact h
  · intro e flag sr
    rfl

/-! ### Decimal rendering and the suffixed-literal layout (C1) -/

theorem dropWhile_eq_self_of_all {p : Char → Bool} :
    ∀ l : List Char, (∀ c ∈ l, p c = false) → l.dropWhile p = l := by
  intro l h
  cases l with
  | nil => rfl
  | cons c rest =>
    rw [List.dropWhile_cons, h c (List.mem_cons_self c rest)]
    simp

theorem trimTok_eq_self {cs : List Char} (h : ∀ c ∈ cs, isWsChar c = false) :
    trimTok cs = cs := by
  unfold trimTok
  rw [dropWhile_eq_self_of_all cs h]
  rw [dropWhile_eq_self_of_all cs.reverse (fun c hc => h c (List.mem_reverse.mp hc))]
  exact List.reverse_reverse cs

theorem digitChar_facts : ∀ d, d < 10 →
    isDigitChar (decDigitChar d) = true ∧ digitVal (decDigitChar d) = d := by
  intro d h
  interval_cases d <;> exact ⟨by decide, by decide⟩

theorem isDigitChar_not_ws {c : Char} (h : isDigitChar c = true) :
    isWsChar c = false := by
  cases hw : isWsChar c
  · rfl
  · exfalso
    simp only [isWsChar, Bool.or_eq_true, decide_eq_true_eq] at hw
    rcases hw with ((h1 | h1) | h1) | h1 <;> subst h1 <;> exact absurd h (by decide)

theorem isDigitChar_ne {c : Char} (h : isDigitChar c = true) :
    c ≠ 't' ∧ c ≠ 'f' ∧ c ≠ 'x' ∧ c ≠ '[' ∧ c ≠ '_' := by
  refine ⟨?_, ?_, ?_, ?_, ?_⟩ <;>
    exact fun heq => absurd h (by subst heq; decide)

theorem decRep_all_digits : ∀ v, ∀ c ∈ decRep v, isDigitChar c = true := by
  intro v c hc
  unfold decRep at hc
  by_cases h : v = 0
  · rw [if_pos h] at hc
    simp at hc
    subst hc
    decide
  · rw [if_neg h] at hc
    simp only [List.mem_reverse, List.mem_map] at hc
    obtain ⟨d, hd, rfl⟩ := hc
    exact (digitChar_facts d (Nat.digits_lt_base (by norm_num) hd)).1

theorem decRep_ne_nil : ∀ v, decRep v ≠ [] := by
  intro v
  unfold decRep
  by_cases h : v = 0
  · rw [if_pos h]
    simp
  · rw [if_neg h]
    simp only [ne_eq, List.reverse_eq_nil_iff, List.map_eq_nil_iff]
    exact Nat.digits_ne_nil_iff_ne_zero.mpr h

theorem foldl_digits_aux :
    ∀ (ds : List Nat) (a : Nat), (∀ d ∈ ds, d < 10) →
      ((ds.map decDigitChar).reverse).foldl (fun acc ch => acc * 10 + digitVal ch) a =
        a * 10 ^ ds.length + Nat.ofDigits 10 ds := by
  intro ds
  induction ds with
  | nil => intro a h; simp [Nat.ofDigits]
  | cons d ds ih =>
    intro a h
    have hd : d < 10 := h d (List.mem_cons_self d ds)
    simp only [List.map_cons, List.reverse_cons, List.foldl_append, List.foldl_cons,
      List.foldl_nil]
    rw [ih a (fun x hx => h x (List.mem_cons_of_mem d hx)), (digitChar_facts d hd).2]
    simp only [Nat.ofDigits_cons, List.length_cons]
    ring

theorem parseDecimal_decRep : ∀ v, parseDecimal (decRep v) = some v := by
  intro v
  unfold parseDecimal
  have h1 : (decRep v).isEmpty = false := by
    cases hd : decRep v with
    | nil => exact absurd hd (decRep_ne_nil v)
    | cons c rest => rfl
  have h2 : (decRep v).all isDigitChar = true :=
    List.all_eq_true.mpr (fun c hc => decRep_all_digits v c hc)
  rw [h1, h2]
  simp only [Bool.not_false, Bool.true_and, if_true]
  congr 1
  by_cases h : v = 0
  · subst h; rfl
  · unfold decRep
    rw [if_neg h]
    rw [foldl_digits_aux (Nat.digits 10 v) 0
      (fun d hd => Nat.digits_lt_base (by norm_num) hd)]
    simp [Nat.ofDigits_digits]

theorem splitOn_no_sep {sep : Char} : ∀ ys : List Char,
    (∀ c ∈ ys, (c == sep) = false) → splitOn sep ys = [ys] := by
  intro ys
  induction ys with
  | nil => intro h; rfl
  | cons c rest ih =>
    intro h
    unfold splitOn
    rw [h c (List.mem_cons_self c rest),
      ih (fun x hx => h x (List.mem_cons_of_mem c hx))]
    simp

theorem splitOn_append_sep {sep : Char} : ∀ xs ys : List Char,
    (∀ c ∈ xs, (c == sep) = false) →
    splitOn sep (xs ++ sep :: ys) = xs :: splitOn sep ys := by
  intro xs
  induction xs with
  | nil =>
    intro ys h
    simp [splitOn]
  | cons c xs ih =>
    intro ys h
    have hc := h c (List.mem_cons_self c xs)
    simp only [List.cons_append]
    conv_lhs => unfold splitOn
    rw [hc, ih ys (fun x hx => h x (List.mem_cons_of_mem c hx))]
    simp

theorem suffixWidth_suffixChars : ∀ w : IntWidth, suffixWidth w.suffixChars = some w := by
  intro w
  cases w <;> rfl

theorem suffix_no_underscore : ∀ (w : IntWidth), ∀ c ∈ w.suffixChars, (c == '_') = false := by
  intro w
  cases w <;> decide

theorem suffix_all_not_ws : ∀ (w : IntWidth), ∀ c ∈ w.suffixChars, isWsChar c = false := by
  intro w
  cases w <;> decide

theorem parseIntTok_suffixed : ∀ (w : IntWidth) (v : Nat),
    parseIntTok (decRep v ++ '_' :: w.suffixChars) =
      if v < 2 ^ w.bits then .ok (.intL (some w) v) else .error .overflowError := by
  intro w v
  unfold parseIntTok
  rw [splitOn_append_sep (decRep v) w.suffixChars
    (fun c hc => by
      have := (isDigitChar_ne (decRep_all_digits v c hc)).2.2.2.2
      simpa using this)]
  rw [splitOn_no_sep w.suffixChars (suffix_no_underscore w)]
  simp only [parseDecimal_decRep v, suffixWidth_suffixChars w]

theorem parseLitF_digit_head : ∀ (fuel : Nat) (d : Char) (rest : List Char),
    isDigitChar d = true →
    (∀ c ∈ d :: rest, isWsChar c = false) →
    (rest = [] ∨ ∃ d2 rest2, rest = d2 :: rest2 ∧ (isDigitChar d2 = true ∨ d2 = '_')) →
    parseLitF (fuel + 1) (d :: rest) = parseIntTok (d :: rest) := by
  intro fuel d rest hd hws hsnd
  have htrim : trimTok (d :: rest) = d :: rest := trimTok_eq_self hws
  obtain ⟨hne_t, hne_f, hne_x, hne_br, _⟩ := isDigitChar_ne hd
  simp only [parseLitF, htrim]
  rw [if_neg (fun heq => by injection heq with h1 h2; exact hne_t h1)]
  rw [if_neg (fun heq => by injection heq with h1 h2; exact hne_f h1)]
  rw [if_neg (fun heq => by
    rw [List.take_succ_cons] at heq
    injection heq with h1 h2
    exact hne_x h1)]
  rw [if_neg (fun heq => by
    rw [List.take_succ_cons] at heq
    injection heq with h1 h2
    exact hne_br h1)]
  rw [if_neg (fun heq => by
    rw [List.take_succ_cons] at heq
    injection heq with h1 h2
    rcases hsnd with hnil | ⟨d2, rest2, hrest2, hd2⟩
    · rw [hnil] at h2
      simp at h2
    · rw [hrest2, List.take_succ_cons, List.take_zero] at h2
      injection h2 with h3 h4
      rcases hd2 with hdig | hund
      · exact absurd hdig (by rw [h3]; decide)
      · rw [hund] at h3
        cases h3)]

/-- C1: for every supported width suffix, a decimal literal that fits the
width parses to the suffixed integer literal and encodes to exactly the
fixed-width little-endian byte layout of that width; in particular 255
suffixed u8 yields the single byte 255, and 256 suffixed u8 fails with the
overflow error. -/
theorem suffixed_literal_layout :
    ∀ (w : IntWidth) (v : Nat), v < 2 ^ w.bits →
      (parseLitTop (decRep v ++ '_' :: w.suffixChars) = .ok (.intL (some w) v) ∧
       defaultResolve (.intL (some w) v) = .ok (.uintV w v) ∧
       encodeValue (.uintV w v) = leBytes (w.bits / 8) v ∧
       (leBytes (w.bits / 8) v).length = w.bits / 8 ∧
       (∀ i, i < w.bits / 8 → (leBytes (w.bits / 8) v).getD i 0 = v / 256 ^ i % 256)) ∧
      parseLitTop (("255_u8".toList)) = .ok (.intL (some .w8) 255) ∧
      encodeValue (.uintV .w8 255) = [255] ∧
      parseLitTop (("256_u8".toList)) = .error .overflowError := by
  intro w v hv
  refine ⟨⟨?_, ?_, ?_, leBytes_length _ _, fun i hi => leBytes_getD _ _ i hi⟩, rfl, ?_, rfl⟩
  · unfold parseLitTop
    obtain ⟨c0, cs0, hdv⟩ : ∃ c0 cs0, decRep v = c0 :: cs0 := by
      cases hdv : decRep v with
      | nil => exact absurd hdv (decRep_ne_nil v)
      | cons c cs => exact ⟨c, cs, rfl⟩
    have hcons : decRep v ++ '_' :: w.suffixChars =
        c0 :: (cs0 ++ '_' :: w.suffixChars) := by
      rw [hdv]
      rfl
    have hd : isDigitChar c0 = true :=
      decRep_all_digits v c0 (by rw [hdv]; exact List.mem_cons_self c0 cs0)
    have hws : ∀ c ∈ c0 :: (cs0 ++ '_' :: w.suffixChars), isWsChar c = false := by
      intro c hc
      rw [← hcons] at hc
      rcases List.mem_append.mp hc with h1 | h1
      · exact isDigitChar_not_ws (decRep_all_digits v c h1)
      · rcases List.mem_cons.mp h1 with h2 | h2
        · subst h2
          rfl
        · exact suffix_all_not_ws w c h2
    have hsnd : cs0 ++ '_' :: w.suffixChars = [] ∨
        ∃ d2 rest2, cs0 ++ '_' :: w.suffixChars = d2 :: rest2 ∧
          (isDigitChar d2 = true ∨ d2 = '_') := by
      cases cs0 with
      | nil => exact Or.inr ⟨'_', w.suffixChars, rfl, Or.inr rfl⟩
      | cons c2 cs2 =>
        refine Or.inr ⟨c2, cs2 ++ '_' :: w.suffixChars, rfl, Or.inl ?_⟩
        refine decRep_all_digits v c2 ?_
        rw [hdv]
        exact List.mem_cons_of_mem c0 (List.mem_cons_self c2 cs2)
    rw [hcons, List.length_cons]
    rw [parseLitF_digit_head ((cs0 ++ '_' :: w.suffixChars).length + 1) c0
      (cs0 ++ '_' :: w.suffixChars) hd hws hsnd]
    rw [← hcons, parseIntTok_suffixed w v, if_pos hv]
  · simp [defaultResolve, hv]
  · simp [encodeValue]
  · simp [encodeValue, IntWidth.bits, leBytes]

/-- Witness for C1 at width u8 and value 255. -/
theorem suffixed_literal_witness :
    parseLitTop (decRep 255 ++ '_' :: IntWidth.w8.suffixChars) =
      .ok (.intL (some .w8) 255) ∧
    encodeValue (.uintV .w8 255) = leBytes (IntWidth.w8.bits / 8) 255 ∧
    parseLitTop (("256_u8".toList)) = .error .overflowError := by
  have h := suffixed_literal_layout .w8 255 (by decide)
  exact ⟨h.1.1, h.1.2.2.1, h.2.2.2⟩

/-! ### Scan and splitter lemmas for the type-tag parser (C4, C7) -/

theorem depthAfter_nil (o c : Char) (d : Nat) : depthAfter o c d [] = d := rfl

theorem depthAfter_cons (o c : Char) (d : Nat) (ch : Char) (x : List Char) :
    depthAfter o c d (ch :: x) = depthAfter o c (stepDepth o c d ch) x := rfl

theorem depthAfter_append (o c : Char) (d : Nat) (x y : List Char) :
    depthAfter o c d (x ++ y) = depthAfter o c (depthAfter o c d x) y := by
  simp [depthAfter]

theorem noDip_cons (o c : Char) (d : Nat) (ch : Char) (x : List Char) :
    noDip o c d (ch :: x) =
      if ch == c && d == 0 then false else noDip o c (stepDepth o c d ch) x := rfl

theorem noSepAtTop_cons (sep o c : Char) (d : Nat) (ch : Char) (x : List Char) :
    noSepAtTop sep o c d (ch :: x) =
      if ch == sep && d == 0 then false
      else noSepAtTop sep o c (stepDepth o c d ch) x := rfl

theorem noDip_append (o c : Char) : ∀ (x y : List Char) (d : Nat),
    noDip o c d (x ++ y) = (noDip o c d x && noDip o c (depthAfter o c d x) y) := by
  intro x
  induction x with
  | nil => intro y d; simp [noDip, depthAfter]
  | cons ch x ih =>
    intro y d
    rw [List.cons_append, noDip_cons, noDip_cons, depthAfter_cons]
    by_cases h : (ch == c && d == 0) = true
    · rw [if_pos h, if_pos h]
      simp
    · rw [if_neg h, if_neg h]
      rw [ih y (stepDepth o c d ch)]

theorem noSepAtTop_append (sep o c : Char) : ∀ (x y : List Char) (d : Nat),
    noSepAtTop sep o c d (x ++ y) =
      (noSepAtTop sep o c d x && noSepAtTop sep o c (depthAfter o c d x) y) := by
  intro x
  induction x with
  | nil => intro y d; simp [noSepAtTop, depthAfter]
  | cons ch x ih =>
    intro y d
    rw [List.cons_append, noSepAtTop_cons, noSepAtTop_cons, depthAfter_cons]
    by_cases h : (ch == sep && d == 0) = true
    · rw [if_pos h, if_pos h]
      simp
    · rw [if_neg h, if_neg h]
      rw [ih y (stepDepth o c d ch)]

theorem scan_shift (o c : Char) : ∀ (x : List Char) (d k : Nat),
    noDip o c d x = true →
      noDip o c (d + k) x = true ∧
      depthAfter o c (d + k) x = depthAfter o c d x + k ∧
      ∀ sep, noSepAtTop sep o c d x = true → noSepAtTop sep o c (d + k) x = true := by
  intro x
  induction x with
  | nil => intro d k h; exact ⟨rfl, rfl, fun sep h2 => rfl⟩
  | cons ch x ih =>
    intro d k h
    unfold noDip at h
    by_cases h1 : (ch == c && d == 0) = true
    · rw [if_pos h1] at h
      cases h
    · rw [if_neg h1] at h
      have hstep : stepDepth o c (d + k) ch = stepDepth o c d ch + k := by
        unfold stepDepth
        by_cases ho : ch = o
        · rw [if_pos ho, if_pos ho]
          omega
        · rw [if_neg ho, if_neg ho]
          by_cases hc : ch = c
          · rw [if_pos hc, if_pos hc]
            have hd : d ≠ 0 := by
              intro hd0
              exact h1 (by simp [hc, hd0])
            omega
          · rw [if_neg hc, if_neg hc]
      have h1k : (ch == c && (d + k) == 0) = false := by
        by_cases hk : d + k = 0
        · have hd0 : d = 0 := by omega
          by_cases hc : ch = c
          · exact absurd (by simp [hc, hd0]) h1
          · simp [hc]
        · simp [hk]
      obtain ⟨ih1, ih2, ih3⟩ := ih (stepDepth o c d ch) k h
      refine ⟨?_, ?_, ?_⟩
      · unfold noDip
        rw [if_neg (by rw [h1k]; simp), hstep]
        exact ih1
      · rw [depthAfter_cons, depthAfter_cons, hstep]
        exact ih2
      · intro sep hsep
        unfold noSepAtTop at hsep ⊢
        by_cases h2 : (ch == sep && d == 0) = true
        · rw [if_pos h2] at hsep
          cases hsep
        · rw [if_neg h2] at hsep
          have h2k : (ch == sep && (d + k) == 0) = false := by
            by_cases hk : d + k = 0
            · have hd0 : d = 0 := by omega
              by_cases hs : ch = sep
              · exact absurd (by simp [hs, hd0]) h2
              · simp [hs]
            · simp [hk]
          rw [if_neg (by rw [h2k]; simp), hstep]
          exact ih3 sep hsep

theorem depthAfter_neutral (o c : Char) : ∀ (x : List Char) (d : Nat),
    (∀ ch ∈ x, ch ≠ o ∧ ch ≠ c) → depthAfter o c d x = d := by
  intro x
  induction x with
  | nil => intro d h; rfl
  | cons ch x ih =>
    intro d h
    have hch := h ch (List.mem_cons_self ch x)
    rw [depthAfter_cons]
    have hstep : stepDepth o c d ch = d := by
      unfold stepDepth
      rw [if_neg hch.1, if_neg hch.2]
    rw [hstep]
    exact ih d (fun y hy => h y (List.mem_cons_of_mem ch hy))

theorem noDip_neutral (o c : Char) : ∀ (x : List Char) (d : Nat),
    (∀ ch ∈ x, ch ≠ o ∧ ch ≠ c) → noDip o c d x = true := by
  intro x
  induction x with
  | nil => intro d h; rfl
  | cons ch x ih =>
    intro d h
    have hch := h ch (List.mem_cons_self ch x)
    unfold noDip
    rw [if_neg (by simp [hch.2])]
    exact ih _ (fun y hy => h y (List.mem_cons_of_mem ch hy))

theorem noSepAtTop_of_no_sep (sep o c : Char) : ∀ (x : List Char) (d : Nat),
    (∀ ch ∈ x, ch ≠ sep) → noSepAtTop sep o c d x = true := by
  intro x
  induction x with
  | nil => intro d h; rfl
  | cons ch x ih =>
    intro d h
    unfold noSepAtTop
    rw [if_neg (by simp [h ch (List.mem_cons_self ch x)])]
    exact ih _ (fun y hy => h y (List.mem_cons_of_mem ch hy))

theorem splitTopD_ne_nil (o c : Char) : ∀ (cs : List Char) (d : Nat),
    splitTopD o c cs d ≠ [] := by
  intro cs
  induction cs with
  | nil => intro d; simp [splitTopD]
  | cons ch rest ih =>
    intro d
    unfold splitTopD
    by_cases h : (ch == ',' && d == 0) = true
    · rw [if_pos h]
      simp
    · rw [if_neg h]
      cases hs : splitTopD o c rest (stepDepth o c d ch) with
      | nil => exact absurd hs (ih _)
      | cons t ts => simp

theorem joinSep_splitTopD (o c : Char) : ∀ (cs : List Char) (d : Nat),
    joinSep ',' (splitTopD o c cs d) = cs := by
  intro cs
  induction cs with
  | nil => intro d; rfl
  | cons ch rest ih =>
    intro d
    unfold splitTopD
    by_cases h : (ch == ',' && d == 0) = true
    · rw [if_pos h]
      have hne := splitTopD_ne_nil o c rest 0
      cases hs : splitTopD o c rest 0 with
      | nil => exact absurd hs hne
      | cons t ts =>
        have hj := ih 0
        rw [hs] at hj
        have hch : ch = ',' := by
          have := h
          simp at this
          exact this.1
        subst hch
        simp only [joinSep]
        rw [hj]
        simp
    · rw [if_neg h]
      have hne := splitTopD_ne_nil o c rest (stepDepth o c d ch)
      cases hs : splitTopD o c rest (stepDepth o c d ch) with
      | nil => exact absurd hs hne
      | cons t ts =>
        have hj := ih (stepDepth o c d ch)
        rw [hs] at hj
        cases ts with
        | nil =>
          simp only [joinSep] at hj ⊢
          rw [hj]
        | cons t2 ts2 =>
          simp only [joinSep] at hj ⊢
          rw [List.cons_append, hj]

theorem splitTopD_no_sep (o c : Char) : ∀ (cs : List Char) (d : Nat),
    noSepAtTop ',' o c d cs = true → splitTopD o c cs d = [cs] := by
  intro cs
  induction cs with
  | nil => intro d h; rfl
  | cons ch rest ih =>
    intro d h
    unfold noSepAtTop at h
    by_cases h1 : (ch == ',' && d == 0) = true
    · rw [if_pos h1] at h
      cases h
    · rw [if_neg h1] at h
      unfold splitTopD
      rw [if_neg h1, ih _ h]

theorem splitTopD_append_sep (o c : Char) : ∀ (xs ys : List Char) (d : Nat),
    noSepAtTop ',' o c d xs = true → depthAfter o c d xs = 0 →
    splitTopD o c (xs ++ ',' :: ys) d = xs :: splitTopD o c ys 0 := by
  intro xs
  induction xs with
  | nil =>
    intro ys d hsep hdep
    rw [depthAfter_nil] at hdep
    subst hdep
    simp [splitTopD]
  | cons ch rest ih =>
    intro ys d hsep hdep
    unfold noSepAtTop at hsep
    by_cases h1 : (ch == ',' && d == 0) = true
    · rw [if_pos h1] at hsep
      cases hsep
    · rw [if_neg h1] at hsep
      rw [depthAfter_cons] at hdep
      simp only [List.cons_append]
      conv_lhs => unfold splitTopD
      rw [if_neg h1]
      rw [ih ys (stepDepth o c d ch) hsep hdep]

theorem splitTopD_tokens (o c : Char) : ∀ (cs : List Char) (d : Nat),
    ∃ t0 ts, splitTopD o c cs d = t0 :: ts ∧ noSepAtTop ',' o c d t0 = true ∧
      ∀ tok ∈ ts, noSepAtTop ',' o c 0 tok = true := by
  intro cs
  induction cs with
  | nil => intro d; exact ⟨[], [], rfl, rfl, by simp⟩
  | cons ch rest ih =>
    intro d
    by_cases h1 : (ch == ',' && d == 0) = true
    · obtain ⟨t0, ts, heq, hh, ht⟩ := ih 0
      refine ⟨[], t0 :: ts, ?_, rfl, ?_⟩
      · unfold splitTopD
        rw [if_pos h1, heq]
      · intro tok htok
        rcases List.mem_cons.mp htok with h2 | h2
        · subst h2; exact hh
        · exact ht tok h2
    · obtain ⟨t0, ts, heq, hh, ht⟩ := ih (stepDepth o c d ch)
      refine ⟨ch :: t0, ts, ?_, ?_, ht⟩
      · unfold splitTopD
        rw [if_neg h1, heq]
      · unfold noSepAtTop
        rw [if_neg h1]
        exact hh

/-! ### Character classes of validated segments -/

theorem isWsChar_cases {ch : Char} (h : isWsChar ch = true) :
    ch = ' ' ∨ ch = '\t' ∨ ch = '\n' ∨ ch = '\r' := by
  simp only [isWsChar, Bool.or_eq_true, decide_eq_true_eq] at h
  tauto

theorem isHexChar_not_special {ch : Char} (h : isHexChar ch = true) :
    ch ≠ '<' ∧ ch ≠ '>' ∧ ch ≠ ',' ∧ ch ≠ ':' ∧ isWsChar ch = false := by
  refine ⟨fun he => absurd h (by subst he; decide),
    fun he => absurd h (by subst he; decide),
    fun he => absurd h (by subst he; decide),
    fun he => absurd h (by subst he; decide), ?_⟩
  cases hw : isWsChar ch
  · rfl
  · rcases isWsChar_cases hw with h1 | h1 | h1 | h1 <;> subst h1 <;>
      exact absurd h (by decide)

theorem isIdentChar_not_special {ch : Char} (h : isIdentChar ch = true) :
    ch ≠ '<' ∧ ch ≠ '>' ∧ ch ≠ ',' ∧ ch ≠ ':' ∧ isWsChar ch = false := by
  refine ⟨fun he => absurd h (by subst he; decide),
    fun he => absurd h (by subst he; decide),
    fun he => absurd h (by subst he; decide),
    fun he => absurd h (by subst he; decide), ?_⟩
  cases hw : isWsChar ch
  · rfl
  · rcases isWsChar_cases hw with h1 | h1 | h1 | h1 <;> subst h1 <;>
      exact absurd h (by decide)

theorem isIdentStartChar_not_special {ch : Char} (h : isIdentStartChar ch = true) :
    ch ≠ '<' ∧ ch ≠ '>' ∧ ch ≠ ',' ∧ ch ≠ ':' ∧ isWsChar ch = false := by
  refine ⟨fun he => absurd h (by subst he; decide),
    fun he => absurd h (by subst he; decide),
    fun he => absurd h (by subst he; decide),
    fun he => absurd h (by subst he; decide), ?_⟩
  cases hw : isWsChar ch
  · rfl
  · rcases isWsChar_cases hw with h1 | h1 | h1 | h1 <;> subst h1 <;>
      exact absurd h (by decide)

theorem validAddress_shape {a : List Char} (h : validAddress a = true) :
    ∃ hx, a = '0' :: 'x' :: hx ∧ hx ≠ [] ∧ ∀ ch ∈ hx, isHexChar ch = true := by
  unfold validAddress at h
  split at h
  · rename_i rest heq
    simp only [Bool.and_eq_true] at h
    refine ⟨heq, rfl, ?_, ?_⟩
    · intro hnil
      subst hnil
      simp at h
    · intro ch hch
      exact List.all_eq_true.mp h.2 ch hch
  · cases h

theorem validAddress_chars {a : List Char} (h : validAddress a = true) :
    ∀ ch ∈ a, ch ≠ '<' ∧ ch ≠ '>' ∧ ch ≠ ',' ∧ ch ≠ ':' ∧ isWsChar ch = false := by
  obtain ⟨hx, rfl, hne, hhex⟩ := validAddress_shape h
  intro ch hch
  rcases List.mem_cons.mp hch with h1 | h1
  · subst h1; exact ⟨by decide, by decide, by decide, by decide, by decide⟩
  rcases List.mem_cons.mp h1 with h2 | h2
  · subst h2; exact ⟨by decide, by decide, by decide, by decide, by decide⟩
  · exact isHexChar_not_special (hhex ch h2)

theorem validIdent_chars {m : List Char} (h : validIdent m = true) :
    ∀ ch ∈ m, ch ≠ '<' ∧ ch ≠ '>' ∧ ch ≠ ',' ∧ ch ≠ ':' ∧ isWsChar ch = false := by
  cases m with
  | nil => intro ch hch; cases hch
  | cons c rest =>
    unfold validIdent at h
    simp only [Bool.and_eq_true] at h
    intro ch hch
    rcases List.mem_cons.mp hch with h1 | h1
    · subst h1; exact isIdentStartChar_not_special h.1
    · exact isIdentChar_not_special (List.all_eq_true.mp h.2 ch h1)

/-! ### Canonical form lemmas -/

theorem sizeOf_pos_tag : ∀ t : TypeTag, 0 < sizeOf t := by
  intro t
  cases t <;> simp_arith

theorem canonParams_nil : canonParams [] = [] := by
  simp [canonParams]

theorem canonParams_single (t : TypeTag) : canonParams [t] = canonTag t := by
  simp [canonParams]

theorem canonParams_cons (t s : TypeTag) (ts : List TypeTag) :
    canonParams (t :: s :: ts) = canonTag t ++ ',' :: ' ' :: canonParams (s :: ts) := by
  simp [canonParams]

theorem canonTag_uint (w : IntWidth) : canonTag (.uintT w) = w.suffixChars := by
  simp [canonTag]

theorem canonTag_bool : canonTag .boolT = ['b', 'o', 'o', 'l'] := by
  simp [canonTag]

theorem canonTag_address : canonTag .addressT = ['a', 'd', 'd', 'r', 'e', 's', 's'] := by
  simp [canonTag]

theorem canonTag_signer : canonTag .signerT = ['s', 'i', 'g', 'n', 'e', 'r'] := by
  simp [canonTag]

theorem canonTag_vector (t : TypeTag) :
    canonTag (.vectorT t) = ['v', 'e', 'c', 't', 'o', 'r', '<'] ++ canonTag t ++ ['>'] := by
  simp [canonTag]

theorem canonTag_struct_nil (a m n : List Char) :
    canonTag (.structT a m n []) = a ++ ':' :: ':' :: m ++ ':' :: ':' :: n := by
  simp [canonTag]

theorem canonTag_struct_cons (a m n : List Char) (p : TypeTag) (ps : List TypeTag) :
    canonTag (.structT a m n (p :: ps)) =
      a ++ ':' :: ':' :: m ++ ':' :: ':' :: n ++ '<' :: (canonParams (p :: ps) ++ ['>']) := by
  simp [canonTag]

theorem segs_neutral {a m n : List Char} (hva : validAddress a = true)
    (hvm : validIdent m = true) (hvn : validIdent n = true) :
    ∀ ch ∈ a ++ ':' :: ':' :: m ++ ':' :: ':' :: n,
      ch ≠ '<' ∧ ch ≠ '>' ∧ ch ≠ ',' ∧ isWsChar ch = false := by
  intro ch hch
  have hmem : ch ∈ a ∨ ch = ':' ∨ ch ∈ m ∨ ch ∈ n := by
    simp only [List.mem_append, List.mem_cons] at hch
    tauto
  rcases hmem with h | h | h | h
  · obtain ⟨x1, x2, x3, _, x5⟩ := validAddress_chars hva ch h
    exact ⟨x1, x2, x3, x5⟩
  · subst h
    exact ⟨by decide, by decide, by decide, by decide⟩
  · obtain ⟨x1, x2, x3, _, x5⟩ := validIdent_chars hvm ch h
    exact ⟨x1, x2, x3, x5⟩
  · obtain ⟨x1, x2, x3, _, x5⟩ := validIdent_chars hvn ch h
    exact ⟨x1, x2, x3, x5⟩

theorem noDip_nil (o c : Char) (d : Nat) : noDip o c d [] = true := rfl

theorem noSepAtTop_nil (sep o c : Char) (d : Nat) : noSepAtTop sep o c d [] = true := rfl

theorem canon_scan : ∀ N : Nat,
    (∀ t : TypeTag, sizeOf t ≤ N → wfTag t = true → ∀ d,
      depthAfter '<' '>' d (canonTag t) = d ∧ noDip '<' '>' d (canonTag t) = true ∧
      noSepAtTop ',' '<' '>' d (canonTag t) = true) ∧
    (∀ ps : List TypeTag, sizeOf ps ≤ N → wfParams ps = true → ∀ d,
      depthAfter '<' '>' d (canonParams ps) = d ∧ noDip '<' '>' d (canonParams ps) = true ∧
      (d ≠ 0 → noSepAtTop ',' '<' '>' d (canonParams ps) = true)) := by
  intro N
  induction N with
  | zero =>
    constructor
    · intro t hsz
      exact absurd hsz (by have := sizeOf_pos_tag t; omega)
    · intro ps hsz
      have : 0 < sizeOf ps := by cases ps <;> simp_arith
      exact absurd hsz (by omega)
  | succ N ih =>
    obtain ⟨ihT, ihP⟩ := ih
    constructor
    · intro t hsz hwf d
      cases t with
      | uintT w =>
        simp only [canonTag_uint]
        exact ⟨depthAfter_neutral _ _ _ _ (by cases w <;> decide),
          noDip_neutral _ _ _ _ (by cases w <;> decide),
          noSepAtTop_of_no_sep _ _ _ _ _ (by cases w <;> decide)⟩
      | boolT =>
        simp only [canonTag_bool]
        exact ⟨depthAfter_neutral _ _ _ _ (by decide), noDip_neutral _ _ _ _ (by decide),
          noSepAtTop_of_no_sep _ _ _ _ _ (by decide)⟩
      | addressT =>
        simp only [canonTag_address]
        exact ⟨depthAfter_neutral _ _ _ _ (by decide), noDip_neutral _ _ _ _ (by decide),
          noSepAtTop_of_no_sep _ _ _ _ _ (by decide)⟩
      | signerT =>
        simp only [canonTag_signer]
        exact ⟨depthAfter_neutral _ _ _ _ (by decide), noDip_neutral _ _ _ _ (by decide),
          noSepAtTop_of_no_sep _ _ _ _ _ (by decide)⟩
      | vectorT s =>
        have hwfs : wfTag s = true := by simpa [wfTag] using hwf
        have hszs : sizeOf s ≤ N := by
          have h2 := hsz
          rw [TypeTag.vectorT.sizeOf_spec] at h2
          omega
        have hds : ∀ d2, depthAfter '<' '>' d2 (canonTag s) = d2 :=
          fun d2 => (ihT s hszs hwfs d2).1
        have hnds : ∀ d2, noDip '<' '>' d2 (canonTag s) = true :=
          fun d2 => (ihT s hszs hwfs d2).2.1
        have hnss : ∀ d2, noSepAtTop ',' '<' '>' d2 (canonTag s) = true :=
          fun d2 => (ihT s hszs hwfs d2).2.2
        simp only [canonTag_vector]
        refine ⟨?_, ?_, ?_⟩
        · simp [depthAfter_append, depthAfter_cons, depthAfter_nil, stepDepth, hds]
        · simp [noDip_append, noDip_cons, noDip_nil, depthAfter_append,
            depthAfter_cons, depthAfter_nil, stepDepth, hds, hnds, Bool.and_eq_true]
        · simp [noSepAtTop_append, noSepAtTop_cons, noSepAtTop_nil, depthAfter_append,
            depthAfter_cons, depthAfter_nil, stepDepth, hds, hnss, Bool.and_eq_true]
      | structT a m n ps =>
        have hw2 : (validAddress a && validIdent m && validIdent n && wfParams ps) =
            true := by simpa [wfTag] using hwf
        simp only [Bool.and_eq_true] at hw2
        obtain ⟨⟨⟨hva, hvm⟩, hvn⟩, hps⟩ := hw2
        have hsegs := segs_neutral hva hvm hvn
        have hda : ∀ d2, depthAfter '<' '>' d2 a = d2 :=
          fun d2 => depthAfter_neutral _ _ _ _
            (fun ch hch => ⟨(validAddress_chars hva ch hch).1,
              (validAddress_chars hva ch hch).2.1⟩)
        have hdm : ∀ d2, depthAfter '<' '>' d2 m = d2 :=
          fun d2 => depthAfter_neutral _ _ _ _
            (fun ch hch => ⟨(validIdent_chars hvm ch hch).1,
              (validIdent_chars hvm ch hch).2.1⟩)
        have hdn : ∀ d2, depthAfter '<' '>' d2 n = d2 :=
          fun d2 => depthAfter_neutral _ _ _ _
            (fun ch hch => ⟨(validIdent_chars hvn ch hch).1,
              (validIdent_chars hvn ch hch).2.1⟩)
        have hnda : ∀ d2, noDip '<' '>' d2 a = true :=
          fun d2 => noDip_neutral _ _ _ _
            (fun ch hch => ⟨(validAddress_chars hva ch hch).1,
              (validAddress_chars hva ch hch).2.1⟩)
        have hndm : ∀ d2, noDip '<' '>' d2 m = true :=
          fun d2 => noDip_neutral _ _ _ _
            (fun ch hch => ⟨(validIdent_chars hvm ch hch).1,
              (validIdent_chars hvm ch hch).2.1⟩)
        have hndn : ∀ d2, noDip '<' '>' d2 n = true :=
          fun d2 => noDip_neutral _ _ _ _
            (fun ch hch => ⟨(validIdent_chars hvn ch hch).1,
              (validIdent_chars hvn ch hch).2.1⟩)
        have hnsa : ∀ d2, noSepAtTop ',' '<' '>' d2 a = true :=
          fun d2 => noSepAtTop_of_no_sep _ _ _ _ _
            (fun ch hch => (validAddress_chars hva ch hch).2.2.1)
        have hnsm : ∀ d2, noSepAtTop ',' '<' '>' d2 m = true :=
          fun d2 => noSepAtTop_of_no_sep _ _ _ _ _
            (fun ch hch => (validIdent_chars hvm ch hch).2.2.1)
        have hnsn : ∀ d2, noSepAtTop ',' '<' '>' d2 n = true :=
          fun d2 => noSepAtTop_of_no_sep _ _ _ _ _
            (fun ch hch => (validIdent_chars hvn ch hch).2.2.1)
        cases ps with
        | nil =>
          simp only [canonTag_struct_nil]
          refine ⟨?_, ?_, ?_⟩
          · simp [depthAfter_append, depthAfter_cons, depthAfter_nil, stepDepth,
              hda, hdm, hdn]
          · simp [noDip_append, noDip_cons, noDip_nil, depthAfter_append,
              depthAfter_cons, depthAfter_nil, stepDepth, hda, hdm, hdn, hnda,
              hndm, hndn, Bool.and_eq_true]
          · simp [noSepAtTop_append, noSepAtTop_cons, noSepAtTop_nil,
              depthAfter_append, depthAfter_cons, depthAfter_nil, stepDepth, hda,
              hdm, hdn, hnsa, hnsm, hnsn, Bool.and_eq_true]
        | cons p ps2 =>
          have hszps : sizeOf (p :: ps2) ≤ N := by
            have h2 := hsz
            rw [TypeTag.structT.sizeOf_spec] at h2
            omega
          have hdP : ∀ d2, depthAfter '<' '>' d2 (canonParams (p :: ps2)) = d2 :=
            fun d2 => (ihP (p :: ps2) hszps hps d2).1
          have hndP : ∀ d2, noDip '<' '>' d2 (canonParams (p :: ps2)) = true :=
            fun d2 => (ihP (p :: ps2) hszps hps d2).2.1
          have hnsP1 : noSepAtTop ',' '<' '>' (d + 1) (canonParams (p :: ps2)) = true :=
            (ihP (p :: ps2) hszps hps (d + 1)).2.2 (by omega)
          simp only [canonTag_struct_cons]
          refine ⟨?_, ?_, ?_⟩
          · simp [depthAfter_append, depthAfter_cons, depthAfter_nil, stepDepth,
              hda, hdm, hdn, hdP]
          · simp [noDip_append, noDip_cons, noDip_nil, depthAfter_append,
              depthAfter_cons, depthAfter_nil, stepDepth, hda, hdm, hdn, hdP,
              hnda, hndm, hndn, hndP, Bool.and_eq_true]
          · simp [noSepAtTop_append, noSepAtTop_cons, noSepAtTop_nil,
              depthAfter_append, depthAfter_cons, depthAfter_nil, stepDepth, hda,
              hdm, hdn, hdP, hnsa, hnsm, hnsn, hnsP1, Bool.and_eq_true]
    · intro ps hsz hwf d
      cases ps with
      | nil =>
        simp [canonParams_nil, depthAfter, noDip, noSepAtTop]
      | cons t ts =>
        have hw2 : (wfTag t && wfParams ts) = true := by simpa [wfParams] using hwf
        simp only [Bool.and_eq_true] at hw2
        obtain ⟨hwt, hwts⟩ := hw2
        have hszt : sizeOf t ≤ N := by
          have h2 := hsz
          rw [List.cons.sizeOf_spec] at h2
          omega
        have hdt : ∀ d2, depthAfter '<' '>' d2 (canonTag t) = d2 :=
          fun d2 => (ihT t hszt hwt d2).1
        have hndt : ∀ d2, noDip '<' '>' d2 (canonTag t) = true :=
          fun d2 => (ihT t hszt hwt d2).2.1
        have hnst : ∀ d2, noSepAtTop ',' '<' '>' d2 (canonTag t) = true :=
          fun d2 => (ihT t hszt hwt d2).2.2
        cases ts with
        | nil =>
          simp only [canonParams_single]
          exact ⟨hdt d, hndt d, fun _ => hnst d⟩
        | cons s ts2 =>
          have hszts : sizeOf (s :: ts2) ≤ N := by
            have h2 := hsz
            rw [List.cons.sizeOf_spec] at h2
            omega
          have hdr : ∀ d2, depthAfter '<' '>' d2 (canonParams (s :: ts2)) = d2 :=
            fun d2 => (ihP (s :: ts2) hszts hwts d2).1
          have hndr : ∀ d2, noDip '<' '>' d2 (canonParams (s :: ts2)) = true :=
            fun d2 => (ihP (s :: ts2) hszts hwts d2).2.1
          have hnsr : ∀ d2, d2 ≠ 0 →
              noSepAtTop ',' '<' '>' d2 (canonParams (s :: ts2)) = true :=
            fun d2 hd2 => (ihP (s :: ts2) hszts hwts d2).2.2 hd2
          simp only [canonParams_cons]
          refine ⟨?_, ?_, ?_⟩
          · simp [depthAfter_append, depthAfter_cons, depthAfter_nil, stepDepth,
              hdt, hdr]
          · simp [noDip_append, noDip_cons, noDip_nil, depthAfter_append,
              depthAfter_cons, depthAfter_nil, stepDepth, hdt, hdr, hndt, hndr,
              Bool.and_eq_true]
          · intro hd
            have hd0 : (d == 0) = false := by
              simp [hd]
            simp [noSepAtTop_append, noSepAtTop_cons, noSepAtTop_nil,
              depthAfter_append, depthAfter_cons, depthAfter_nil, stepDepth, hdt,
              hnst, hd0, Bool.and_eq_true, hnsr d hd]

theorem getLast?_append_of_ne_nil {l2 : List Char} (l1 : List Char) (h : l2 ≠ []) :
    (l1 ++ l2).getLast? = l2.getLast? := by
  rw [List.getLast?_append, List.getLast?_eq_getLast l2 h]
  simp

theorem mem_of_getLast?_eq {l : List Char} {c : Char} (h : l.getLast? = some c) :
    c ∈ l := by
  obtain ⟨hne, hceq⟩ := List.mem_getLast?_eq_getLast
    (show c ∈ l.getLast? from by rw [h]; rfl)
  rw [hceq]
  exact List.getLast_mem hne

theorem dropWhile_eq_self_of_head {p : Char → Bool} {l : List Char}
    (h : ∀ c, l.head? = some c → p c = false) : l.dropWhile p = l := by
  cases l with
  | nil => rfl
  | cons c rest =>
    rw [List.dropWhile_cons, h c rfl]
    simp

theorem trimTok_eq_self_of_head_last {cs : List Char}
    (hh : ∀ c, cs.head? = some c → isWsChar c = false)
    (hl : ∀ c, cs.getLast? = some c → isWsChar c = false) : trimTok cs = cs := by
  unfold trimTok
  rw [dropWhile_eq_self_of_head hh]
  rw [dropWhile_eq_self_of_head (fun c hc => hl c (by rwa [List.head?_reverse] at hc))]
  exact List.reverse_reverse cs

theorem trimTok_cons_space (x : List Char) : trimTok (' ' :: x) = trimTok x := by
  unfold trimTok
  rw [List.dropWhile_cons]
  simp [isWsChar]

theorem canonTag_ne_nil : ∀ t : TypeTag, canonTag t ≠ [] := by
  intro t
  cases t with
  | uintT w => rw [canonTag_uint]; cases w <;> decide
  | boolT => rw [canonTag_bool]; decide
  | addressT => rw [canonTag_address]; decide
  | signerT => rw [canonTag_signer]; decide
  | vectorT s => rw [canonTag_vector]; simp
  | structT a m n ps =>
    cases ps with
    | nil => rw [canonTag_struct_nil]; simp
    | cons p ps2 => rw [canonTag_struct_cons]; simp

theorem canonParams_ne_nil : ∀ ps : List TypeTag, ps ≠ [] → canonParams ps ≠ [] := by
  intro ps hne
  cases ps with
  | nil => exact absurd rfl hne
  | cons t ts =>
    cases ts with
    | nil => rw [canonParams_single]; exact canonTag_ne_nil t
    | cons s ts2 =>
      rw [canonParams_cons]
      have := canonTag_ne_nil t
      simp

theorem canonTag_trim : ∀ t : TypeTag, wfTag t = true → trimTok (canonTag t) = canonTag t := by
  intro t hwf
  cases t with
  | uintT w => rw [canonTag_uint]; cases w <;> decide
  | boolT => rw [canonTag_bool]; decide
  | addressT => rw [canonTag_address]; decide
  | signerT => rw [canonTag_signer]; decide
  | vectorT s =>
    rw [canonTag_vector]
    refine trimTok_eq_self_of_head_last ?_ ?_
    · intro c hc
      simp at hc
      subst hc
      rfl
    · intro c hc
      rw [show ['v', 'e', 'c', 't', 'o', 'r', '<'] ++ canonTag s ++ ['>'] =
        (['v', 'e', 'c', 't', 'o', 'r', '<'] ++ canonTag s) ++ ['>'] from by
          simp [List.append_assoc], List.getLast?_concat] at hc
      cases hc
      rfl
  | structT a m n ps =>
    have hw2 : (validAddress a && validIdent m && validIdent n && wfParams ps) =
        true := by simpa [wfTag] using hwf
    simp only [Bool.and_eq_true] at hw2
    obtain ⟨⟨⟨hva, hvm⟩, hvn⟩, hps⟩ := hw2
    obtain ⟨hx, ha, hxne, hhex⟩ := validAddress_shape hva
    have hnne : n ≠ [] := by
      intro hn
      subst hn
      simp [validIdent] at hvn
    cases ps with
    | nil =>
      rw [canonTag_struct_nil]
      refine trimTok_eq_self_of_head_last ?_ ?_
      · intro c hc
        subst ha
        simp at hc
        subst hc
        rfl
      · intro c hc
        have hlast : (a ++ ':' :: ':' :: m ++ ':' :: ':' :: n).getLast? = n.getLast? := by
          rw [getLast?_append_of_ne_nil _ (by simp : (':' :: ':' :: n) ≠ []),
            show (':' :: ':' :: n) = [':', ':'] ++ n from rfl,
            getLast?_append_of_ne_nil _ hnne]
        rw [hlast] at hc
        exact (validIdent_chars hvn c (mem_of_getLast?_eq hc)).2.2.2.2
    | cons p ps2 =>
      rw [canonTag_struct_cons]
      refine trimTok_eq_self_of_head_last ?_ ?_
      · intro c hc
        subst ha
        simp at hc
        subst hc
        rfl
      · intro c hc
        rw [show a ++ ':' :: ':' :: m ++ ':' :: ':' :: n ++
            '<' :: (canonParams (p :: ps2) ++ ['>']) =
            (a ++ ':' :: ':' :: m ++ ':' :: ':' :: n ++
              '<' :: canonParams (p :: ps2)) ++ ['>'] from by
            simp [List.append_assoc], List.getLast?_concat] at hc
        cases hc
        rfl

theorem splitTop_canonParams : ∀ ps : List TypeTag, wfParams ps = true →
    splitTopD '<' '>' (canonParams ps) 0 = canonToks ps := by
  intro ps
  induction ps with
  | nil =>
    intro h
    rw [canonParams_nil]
    rfl
  | cons t ts ih =>
    intro hwf
    have hw2 : (wfTag t && wfParams ts) = true := by simpa [wfParams] using hwf
    simp only [Bool.and_eq_true] at hw2
    obtain ⟨hwt, hwts⟩ := hw2
    have hscan := (canon_scan (sizeOf t)).1 t le_rfl hwt
    cases ts with
    | nil =>
      rw [canonParams_single]
      rw [splitTopD_no_sep '<' '>' (canonTag t) 0 (hscan 0).2.2]
      rfl
    | cons s ts2 =>
      rw [canonParams_cons]
      rw [splitTopD_append_sep '<' '>' (canonTag t) (' ' :: canonParams (s :: ts2)) 0
        (hscan 0).2.2 (hscan 0).1]
      conv_lhs => unfold splitTopD
      rw [if_neg (by decide)]
      rw [show stepDepth '<' '>' 0 ' ' = 0 from rfl]
      rw [ih hwts]
      simp [canonToks]

theorem canonTag_len_mem : ∀ (ps : List TypeTag) (t : TypeTag), t ∈ ps →
    (canonTag t).length ≤ (canonParams ps).length := by
  intro ps
  induction ps with
  | nil => intro t ht; cases ht
  | cons u ts ih =>
    intro t ht
    rcases List.mem_cons.mp ht with heq | hmem
    · subst heq
      cases ts with
      | nil => rw [canonParams_single]
      | cons s ts2 =>
        rw [canonParams_cons]
        simp
    · cases ts with
      | nil => cases hmem
      | cons s ts2 =>
        rw [canonParams_cons]
        have := ih t hmem
        simp
        omega

theorem canonToks_len : ∀ (ps : List TypeTag), ∀ tok ∈ canonToks ps, ps ≠ [] →
    tok.length ≤ (canonParams ps).length := by
  intro ps tok htok hne
  cases ps with
  | nil => exact absurd rfl hne
  | cons t ts =>
    unfold canonToks at htok
    rcases List.mem_cons.mp htok with heq | hmem
    · subst heq
      exact canonTag_len_mem (t :: ts) t (List.mem_cons_self t ts)
    · obtain ⟨x, hx, hxeq⟩ := List.mem_map.mp hmem
      subst hxeq
      cases ts with
      | nil => cases hx
      | cons s ts2 =>
        rw [canonParams_cons]
        have := canonTag_len_mem (s :: ts2) x hx
        simp
        omega

theorem trimTok_length_le : ∀ cs : List Char, (trimTok cs).length ≤ cs.length := by
  intro cs
  unfold trimTok
  have h1 := (List.dropWhile_sublist (l := cs) isWsChar).length_le
  have h2 := (List.dropWhile_sublist (l := (cs.dropWhile isWsChar).reverse)
    isWsChar).length_le
  simp only [List.length_reverse] at h2 ⊢
  omega

theorem splitOn_canonSegs {a m n : List Char} (hva : validAddress a = true)
    (hvm : validIdent m = true) (hvn : validIdent n = true) :
    splitOn ':' (a ++ ':' :: ':' :: m ++ ':' :: ':' :: n) = [a, [], m, [], n] := by
  have hnoA : ∀ ch ∈ a, (ch == ':') = false := by
    intro ch hch
    simpa using (validAddress_chars hva ch hch).2.2.2.1
  have hnoM : ∀ ch ∈ m, (ch == ':') = false := by
    intro ch hch
    simpa using (validIdent_chars hvm ch hch).2.2.2.1
  have hnoN : ∀ ch ∈ n, (ch == ':') = false := by
    intro ch hch
    simpa using (validIdent_chars hvn ch hch).2.2.2.1
  rw [List.append_assoc]
  show splitOn ':' (a ++ ':' :: (':' :: (m ++ ':' :: ':' :: n))) = [a, [], m, [], n]
  rw [splitOn_append_sep a _ hnoA]
  rw [show splitOn ':' (':' :: (m ++ ':' :: ':' :: n)) =
    [] :: splitOn ':' (m ++ ':' :: ':' :: n) from rfl]
  rw [splitOn_append_sep m _ hnoM]
  rw [show splitOn ':' (':' :: n) = [] :: splitOn ':' n from rfl]
  rw [splitOn_no_sep n hnoN]

theorem parseSegs_canon {a m n : List Char} (hva : validAddress a = true)
    (hvm : validIdent m = true) (hvn : validIdent n = true) (ps : List TypeTag) :
    parseSegs (a ++ ':' :: ':' :: m ++ ':' :: ':' :: n) ps = .ok (.structT a m n ps) := by
  unfold parseSegs
  rw [splitOn_canonSegs hva hvm hvn]
  simp [hva, hvm, hvn]

theorem idxOf_append_first : ∀ (head : List Char) (c : Char) (tail : List Char),
    (∀ ch ∈ head, (ch == c) = false) →
    idxOfChar c (head ++ c :: tail) = head.length := by
  intro head
  induction head with
  | nil =>
    intro c tail h
    simp [idxOfChar]
  | cons ch rest ih =>
    intro c tail h
    simp only [List.cons_append]
    unfold idxOfChar
    rw [h ch (List.mem_cons_self ch rest), ih c tail
      (fun x hx => h x (List.mem_cons_of_mem ch hx))]
    rfl

theorem parseTagF_zero_head (fuel : Nat) (cs rest : List Char)
    (h : trimTok cs = '0' :: rest) :
    parseTagF (fuel + 1) cs =
      (if ('0' :: rest).any (fun ch => ch == '<') then
        if ('0' :: rest).getLast? = some '>' then
          match
            exList (parseTagF fuel)
              (splitTop '<' '>'
                ((('0' :: rest).drop (idxOfChar '<' ('0' :: rest) + 1)).dropLast)) with
          | .ok ps => parseSegs (('0' :: rest).take (idxOfChar '<' ('0' :: rest))) ps
          | .error e => .error e
        else .error .parseError
      else parseSegs ('0' :: rest) []) := by
  simp only [parseTagF, h]

theorem canonToks_forall₂ (R : TypeTag → List Char → Prop) :
    ∀ ps : List TypeTag, ps ≠ [] → wfParams ps = true →
    (∀ t ∈ ps, R t (canonTag t)) →
    (∀ t ∈ ps, ∀ tok, R t tok → R t (' ' :: tok)) →
    List.Forall₂ R ps (canonToks ps) := by
  intro ps hne hwf hcanon hsp
  cases ps with
  | nil => exact absurd rfl hne
  | cons t ts =>
    unfold canonToks
    refine List.Forall₂.cons (hcanon t (List.mem_cons_self t ts)) ?_
    clear hne hwf
    induction ts with
    | nil => exact List.Forall₂.nil
    | cons s ts2 ih =>
      simp only [List.map_cons]
      refine List.Forall₂.cons ?_ ?_
      · exact hsp s (by simp) (canonTag s) (hcanon s (by simp))
      · exact ih (fun x hx => hcanon x (by
          rcases List.mem_cons.mp hx with h1 | h1
          · subst h1; simp
          · simp [h1]))
          (fun x hx tok htok => hsp x (by
            rcases List.mem_cons.mp hx with h1 | h1
            · subst h1; simp
            · simp [h1]) tok htok)

theorem wfParams_mem : ∀ (ps : List TypeTag), wfParams ps = true →
    ∀ t ∈ ps, wfTag t = true := by
  intro ps
  induction ps with
  | nil => intro _ t ht; cases ht
  | cons u ts ih =>
    intro hwf t ht
    have hw2 : (wfTag u && wfParams ts) = true := by simpa [wfParams] using hwf
    simp only [Bool.and_eq_true] at hw2
    rcases List.mem_cons.mp ht with heq | hmem
    · subst heq; exact hw2.1
    · exact ih hw2.2 t hmem

theorem parse_canon : ∀ fuel : Nat,
    (∀ (t : TypeTag) (cs : List Char), wfTag t = true → trimTok cs = canonTag t →
      (canonTag t).length < fuel → parseTagF fuel cs = .ok t) ∧
    (∀ (ps : List TypeTag) (toks : List (List Char)),
      List.Forall₂ (fun t tok => wfTag t = true ∧ trimTok tok = canonTag t ∧
        (canonTag t).length < fuel) ps toks →
      exList (parseTagF fuel) toks = .ok ps) := by
  intro fuel
  induction fuel with
  | zero =>
    constructor
    · intro t cs _ _ hlen
      omega
    · intro ps toks hf
      cases hf with
      | nil => rfl
      | cons h1 h2 => omega
  | succ fuelN ih =>
    obtain ⟨ihP, ihQ⟩ := ih
    have hP : ∀ (t : TypeTag) (cs : List Char), wfTag t = true →
        trimTok cs = canonTag t → (canonTag t).length < fuelN + 1 →
        parseTagF (fuelN + 1) cs = .ok t := by
      intro t cs hwf htrim hlen
      cases t with
      | uintT w =>
        rw [canonTag_uint] at htrim
        cases w <;> simp [parseTagF, htrim, IntWidth.suffixChars]
      | boolT =>
        rw [canonTag_bool] at htrim
        simp [parseTagF, htrim]
      | addressT =>
        rw [canonTag_address] at htrim
        simp [parseTagF, htrim]
      | signerT =>
        rw [canonTag_signer] at htrim
        simp [parseTagF, htrim]
      | vectorT s =>
        have hwfs : wfTag s = true := by simpa [wfTag] using hwf
        have hlen2 : (canonTag s).length < fuelN := by
          rw [canonTag_vector] at hlen
          simp at hlen
          omega
        rw [canonTag_vector] at htrim
        have htrim2 : trimTok cs =
            'v' :: ('e' :: 'c' :: 't' :: 'o' :: 'r' :: '<' :: (canonTag s ++ ['>'])) := by
          rw [htrim]
          simp
        simp only [parseTagF, htrim2]
        rw [List.getLast?_concat]
        rw [if_pos rfl]
        rw [List.dropLast_concat]
        rw [ihP s (canonTag s) hwfs (canonTag_trim s hwfs) hlen2]
      | structT a m nn ps =>
        have hw2 : (validAddress a && validIdent m && validIdent nn && wfParams ps) =
            true := by simpa [wfTag] using hwf
        simp only [Bool.and_eq_true] at hw2
        obtain ⟨⟨⟨hva, hvm⟩, hvn⟩, hps⟩ := hw2
        obtain ⟨hx, ha, hxne, hhex⟩ := validAddress_shape hva
        have hsegs := segs_neutral hva hvm hvn
        cases ps with
        | nil =>
          rw [canonTag_struct_nil] at htrim
          have h0 : trimTok cs =
              '0' :: (((('x' :: hx) ++ ':' :: ':' :: m) ++ ':' :: ':' :: nn)) := by
            rw [htrim, ha]
            rfl
          rw [parseTagF_zero_head fuelN cs _ h0]
          have hS : ('0' :: (((('x' :: hx) ++ ':' :: ':' :: m) ++ ':' :: ':' :: nn))) =
              a ++ ':' :: ':' :: m ++ ':' :: ':' :: nn := by
            rw [ha]
            rfl
          rw [hS]
          rw [show (a ++ ':' :: ':' :: m ++ ':' :: ':' :: nn).any
              (fun ch => ch == '<') = false from List.any_eq_false.mpr
              (fun x hx2 => by simp [(hsegs x hx2).1])]
          rw [if_neg (by simp)]
          exact parseSegs_canon hva hvm hvn []
        | cons p ps2 =>
          rw [canonTag_struct_cons] at htrim
          have hboundEach : ∀ t ∈ p :: ps2, (canonTag t).length < fuelN := by
            rw [canonTag_struct_cons] at hlen
            simp only [List.length_append, List.length_cons] at hlen
            intro t ht
            have h1 := canonTag_len_mem (p :: ps2) t ht
            omega
          have h0 : trimTok cs =
              '0' :: ((((('x' :: hx) ++ ':' :: ':' :: m) ++ ':' :: ':' :: nn) ++
                '<' :: (canonParams (p :: ps2) ++ ['>']))) := by
            rw [htrim, ha]
            rfl
          rw [parseTagF_zero_head fuelN cs _ h0]
          have hS : ('0' :: ((((('x' :: hx) ++ ':' :: ':' :: m) ++ ':' :: ':' :: nn) ++
              '<' :: (canonParams (p :: ps2) ++ ['>'])))) =
              a ++ ':' :: ':' :: m ++ ':' :: ':' :: nn ++
                '<' :: (canonParams (p :: ps2) ++ ['>']) := by
            rw [ha]
            rfl
          rw [hS]
          rw [show (a ++ ':' :: ':' :: m ++ ':' :: ':' :: nn ++
              '<' :: (canonParams (p :: ps2) ++ ['>'])).any (fun ch => ch == '<') =
              true from List.any_eq_true.mpr
              ⟨'<', List.mem_append.mpr (Or.inr (List.mem_cons_self _ _)), by simp⟩]
          rw [if_pos rfl]
          have hlast : (a ++ ':' :: ':' :: m ++ ':' :: ':' :: nn ++
              '<' :: (canonParams (p :: ps2) ++ ['>'])).getLast? = some '>' := by
            rw [getLast?_append_of_ne_nil _ (by simp :
              ('<' :: (canonParams (p :: ps2) ++ ['>'])) ≠ [])]
            rw [show '<' :: (canonParams (p :: ps2) ++ ['>']) =
              ['<'] ++ (canonParams (p :: ps2) ++ ['>']) from rfl]
            rw [getLast?_append_of_ne_nil _ (by simp)]
            exact List.getLast?_concat _
          rw [hlast]
          rw [if_pos rfl]
          have hidx : idxOfChar '<' (a ++ ':' :: ':' :: m ++ ':' :: ':' :: nn ++
              '<' :: (canonParams (p :: ps2) ++ ['>'])) =
              (a ++ ':' :: ':' :: m ++ ':' :: ':' :: nn).length :=
            idxOf_append_first _ '<' _ (fun ch hch => by simp [(hsegs ch hch).1])
          rw [hidx]
          rw [List.take_left]
          have hdrop : (a ++ ':' :: ':' :: m ++ ':' :: ':' :: nn ++
              '<' :: (canonParams (p :: ps2) ++ ['>'])).drop
                ((a ++ ':' :: ':' :: m ++ ':' :: ':' :: nn).length + 1) =
              canonParams (p :: ps2) ++ ['>'] := by
            rw [show a ++ ':' :: ':' :: m ++ ':' :: ':' :: nn ++
                '<' :: (canonParams (p :: ps2) ++ ['>']) =
                ((a ++ ':' :: ':' :: m ++ ':' :: ':' :: nn) ++ ['<']) ++
                  (canonParams (p :: ps2) ++ ['>']) from by simp]
            rw [show (a ++ ':' :: ':' :: m ++ ':' :: ':' :: nn).length + 1 =
              ((a ++ ':' :: ':' :: m ++ ':' :: ':' :: nn) ++ ['<']).length from by
                simp only [List.length_append, List.length_cons, List.length_nil]]
            exact List.drop_left _ _
          rw [hdrop, List.dropLast_concat]
          rw [show splitTop '<' '>' (canonParams (p :: ps2)) =
            splitTopD '<' '>' (canonParams (p :: ps2)) 0 from rfl]
          rw [splitTop_canonParams (p :: ps2) hps]
          rw [ihQ (p :: ps2) (canonToks (p :: ps2))
            (canonToks_forall₂ _ (p :: ps2) (by simp) hps
              (fun t ht => ⟨wfParams_mem _ hps t ht,
                canonTag_trim t (wfParams_mem _ hps t ht), hboundEach t ht⟩)
              (fun t ht tok htok => ⟨htok.1,
                by rw [trimTok_cons_space, htok.2.1], htok.2.2⟩))]
          exact parseSegs_canon hva hvm hvn (p :: ps2)
    refine ⟨hP, ?_⟩
    intro ps toks hf
    induction hf with
    | nil => rfl
    | cons h1 h2 ihf =>
      rename_i t tok ps2 toks2
      unfold exList
      rw [hP t tok h1.1 h1.2.1 h1.2.2]
      rw [ihf]

theorem parseSegs_ok_wf : ∀ (head : List Char) (ps : List TypeTag) (t : TypeTag),
    parseSegs head ps = .ok t → wfParams ps = true → wfTag t = true := by
  intro head ps t h hps
  unfold parseSegs at h
  split at h
  · rename_i a m n heq
    split_ifs at h with hv
    cases h
    simp only [Bool.and_eq_true] at hv
    simp [wfTag, hv.1.1, hv.1.2, hv.2, hps]
  · cases h

theorem parse_wf : ∀ fuel : Nat,
    (∀ (cs : List Char) (t : TypeTag), parseTagF fuel cs = .ok t → wfTag t = true) ∧
    (∀ (toks : List (List Char)) (ts : List TypeTag),
      exList (parseTagF fuel) toks = .ok ts → wfParams ts = true) := by
  intro fuel
  induction fuel with
  | zero =>
    constructor
    · intro cs t h
      cases h
    · intro toks ts h
      cases toks with
      | nil => cases h; rfl
      | cons tok toks2 =>
        unfold exList at h
        rw [show parseTagF 0 tok = .error .parseError from rfl] at h
        cases h
  | succ fuelN ih =>
    obtain ⟨ihT, ihL⟩ := ih
    have hT : ∀ (cs : List Char) (t : TypeTag), parseTagF (fuelN + 1) cs = .ok t →
        wfTag t = true := by
      intro cs t h
      simp only [parseTagF] at h
      split at h
      · split_ifs at h <;> (cases h; rfl)
      · split_ifs at h <;> (cases h; rfl)
      · split_ifs at h <;> (cases h; rfl)
      · split_ifs at h <;> (cases h; rfl)
      · split at h
        · split_ifs at h with hlast
          split at h
          · rename_i s heq2
            cases h
            simpa [wfTag] using ihT _ s heq2
          · cases h
        · cases h
      · split_ifs at h with hany hlast
        · split at h
          · rename_i ps heq2
            exact parseSegs_ok_wf _ ps t h (ihL _ ps heq2)
          · cases h
        · exact parseSegs_ok_wf _ [] t h rfl
      · cases h
    refine ⟨hT, ?_⟩
    intro toks
    induction toks with
    | nil =>
      intro ts h
      cases h
      rfl
    | cons tok toks2 ihtoks =>
      intro ts h
      unfold exList at h
      cases hf : parseTagF (fuelN + 1) tok with
      | error e => rw [hf] at h; cases h
      | ok x =>
        rw [hf] at h
        cases hrest : exList (parseTagF (fuelN + 1)) toks2 with
        | error e => rw [hrest] at h; cases h
        | ok xs =>
          rw [hrest] at h
          cases h
          have h1 := hT tok x hf
          have h2 := ihtoks xs hrest
          simp [wfParams, h1, h2]

theorem wfParams_of_forall : ∀ ps : List TypeTag, (∀ t ∈ ps, wfTag t = true) →
    wfParams ps = true := by
  intro ps
  induction ps with
  | nil => intro _; rfl
  | cons t ts ih =>
    intro h
    simp [wfParams, h t (List.mem_cons_self t ts),
      ih (fun x hx => h x (List.mem_cons_of_mem t hx))]

theorem forall₂_mem_right {α β : Type} {R : α → β → Prop} :
    ∀ {l₁ : List α} {l₂ : List β}, List.Forall₂ R l₁ l₂ →
      ∀ b ∈ l₂, ∃ a, a ∈ l₁ ∧ R a b := by
  intro l₁ l₂ h
  induction h with
  | nil => intro b hb; cases hb
  | cons h1 h2 ih =>
    intro b hb
    rcases List.mem_cons.mp hb with heq | hmem
    · subst heq
      exact ⟨_, List.mem_cons_self _ _, h1⟩
    · obtain ⟨a, ha, hr⟩ := ih b hmem
      exact ⟨a, List.mem_cons_of_mem _ ha, hr⟩

theorem parseTokens_canonToks : ∀ ps : List TypeTag, wfParams ps = true → ps ≠ [] →
    exList parseTagTop (canonToks ps) = .ok ps := by
  intro ps hwf hne
  have hf : List.Forall₂ (fun t tok => wfTag t = true ∧ trimTok tok = canonTag t)
      ps (canonToks ps) :=
    canonToks_forall₂ _ ps hne hwf
      (fun t ht => ⟨wfParams_mem _ hwf t ht,
        canonTag_trim t (wfParams_mem _ hwf t ht)⟩)
      (fun t ht tok htok => ⟨htok.1, by rw [trimTok_cons_space, htok.2]⟩)
  have hf2 : List.Forall₂ (fun tok t => parseTagTop tok = .ok t) (canonToks ps) ps := by
    refine (List.Forall₂.flip ?_)
    refine List.Forall₂.imp ?_ hf
    intro t tok htok
    show parseTagTop tok = .ok t
    unfold parseTagTop
    refine (parse_canon (tok.length + 1)).1 t tok htok.1 htok.2 ?_
    have h1 : (canonTag t).length ≤ tok.length := by
      rw [← htok.2]
      exact trimTok_length_le tok
    omega
  exact exList_of_forall₂ parseTagTop _ _ hf2

/-- C7: for every type-tag string accepted by the parser, serializing the
parsed TypeTag sequence back to canonical string form and parsing that
string again yields the same sequence. -/
theorem type_tag_roundtrip :
    ∀ (cs : List Char) (tags : List TypeTag), parseTypeTags cs = .ok tags →
      parseTypeTags (canonParams tags) = .ok tags := by
  intro cs tags h
  unfold parseTypeTags at h
  by_cases hnil : cs = []
  · rw [if_pos hnil] at h
    cases h
    rw [canonParams_nil]
    rfl
  · rw [if_neg hnil] at h
    unfold parseTokens at h
    have hwf : wfParams tags = true := by
      refine wfParams_of_forall tags ?_
      intro t ht
      have hfa := exList_ok_forall₂ parseTagTop _ _ h
      obtain ⟨tok, _, hpt⟩ := forall₂_mem_right hfa t ht
      exact (parse_wf (tok.length + 1)).1 tok t hpt
    cases tags with
    | nil =>
      rw [canonParams_nil]
      rfl
    | cons t ts =>
      unfold parseTypeTags
      rw [if_neg (canonParams_ne_nil (t :: ts) (by simp))]
      unfold parseTokens
      rw [show splitTop '<' '>' (canonParams (t :: ts)) =
        splitTopD '<' '>' (canonParams (t :: ts)) 0 from rfl]
      rw [splitTop_canonParams (t :: ts) hwf]
      exact parseTokens_canonToks (t :: ts) hwf (by simp)

/-- Witness for C7 at a concrete accepted type-tag string. -/
theorem type_tag_roundtrip_witness :
    parseTypeTags (canonParams
        [TypeTag.vectorT (.uintT .w8),
         TypeTag.structT ("0x1".toList) ("aptos_coin".toList) ("AptosCoin".toList) []]) =
      .ok [TypeTag.vectorT (.uintT .w8),
           TypeTag.structT ("0x1".toList) ("aptos_coin".toList) ("AptosCoin".toList) []] :=
  type_tag_roundtrip (("vector<u8>, 0x1::aptos_coin::AptosCoin".toList))
    [TypeTag.vectorT (.uintT .w8),
     TypeTag.structT ("0x1".toList) ("aptos_coin".toList) ("AptosCoin".toList) []]
    (by rfl)

/-! ### Balance soundness of the type-tag parser (C4) -/

theorem forall₂_mem_left {α β : Type} {R : α → β → Prop} :
    ∀ {l₁ : List α} {l₂ : List β}, List.Forall₂ R l₁ l₂ →
      ∀ a ∈ l₁, ∃ b, b ∈ l₂ ∧ R a b := by
  intro l₁ l₂ h
  induction h with
  | nil => intro a ha; cases ha
  | cons h1 h2 ih =>
    intro a ha
    rcases List.mem_cons.mp ha with heq | hmem
    · subst heq
      exact ⟨_, List.mem_cons_self _ _, h1⟩
    · obtain ⟨b, hb, hr⟩ := ih a hmem
      exact ⟨b, List.mem_cons_of_mem _ hb, hr⟩

theorem idxOf_decomp : ∀ (cs : List Char) (c : Char),
    cs.any (fun ch => ch == c) = true →
    cs = cs.take (idxOfChar c cs) ++ c :: cs.drop (idxOfChar c cs + 1) ∧
    ∀ ch ∈ cs.take (idxOfChar c cs), (ch == c) = false := by
  intro cs
  induction cs with
  | nil => intro c h; cases h
  | cons ch rest ih =>
    intro c h
    by_cases hc : (ch == c) = true
    · have hcc : ch = c := by simpa using hc
      subst hcc
      unfold idxOfChar
      simp [hc]
    · unfold idxOfChar
      rw [if_neg hc]
      have h2 : rest.any (fun x => x == c) = true := by
        rcases List.any_eq_true.mp h with ⟨x, hx, hxc⟩
        rcases List.mem_cons.mp hx with heq | hmem
        · subst heq
          exact absurd hxc hc
        · exact List.any_eq_true.mpr ⟨x, hmem, hxc⟩
      obtain ⟨ih1, ih2⟩ := ih c h2
      constructor
      · simp only [List.take_succ_cons, List.drop_succ_cons, List.cons_append]
        rw [← ih1]
      · intro x hx
        simp only [List.take_succ_cons] at hx
        rcases List.mem_cons.mp hx with heq | hmem
        · subst heq
          simpa using fun hcc => hc (by simpa using hcc)
        · exact ih2 x hmem

theorem eq_dropLast_concat_of_getLast? {cs : List Char} {c : Char}
    (h : cs.getLast? = some c) : cs = cs.dropLast ++ [c] := by
  have hne : cs ≠ [] := by
    intro h0
    subst h0
    cases h
  have hfull := List.dropLast_append_getLast hne
  rw [List.getLast?_eq_getLast cs hne] at h
  injection h with h2
  rw [h2] at hfull
  exact hfull.symm

theorem isWsChar_not_bracket {ch : Char} (h : isWsChar ch = true) :
    ch ≠ '<' ∧ ch ≠ '>' := by
  rcases isWsChar_cases h with h1 | h1 | h1 | h1 <;> subst h1 <;>
    exact ⟨by decide, by decide⟩

theorem trim_decomp : ∀ cs : List Char, ∃ l r,
    cs = l ++ trimTok cs ++ r ∧ (∀ c ∈ l, isWsChar c = true) ∧
    ∀ c ∈ r, isWsChar c = true := by
  intro cs
  refine ⟨cs.takeWhile isWsChar,
    ((cs.dropWhile isWsChar).reverse.takeWhile isWsChar).reverse, ?_, ?_, ?_⟩
  · have h1 : cs.takeWhile isWsChar ++ cs.dropWhile isWsChar = cs :=
      List.takeWhile_append_dropWhile ..
    have h2 : (cs.dropWhile isWsChar).reverse.takeWhile isWsChar ++
        (cs.dropWhile isWsChar).reverse.dropWhile isWsChar =
        (cs.dropWhile isWsChar).reverse :=
      List.takeWhile_append_dropWhile ..
    have h4 := congrArg List.reverse h2
    rw [List.reverse_append, List.reverse_reverse] at h4
    have h3 : cs.dropWhile isWsChar = trimTok cs ++
        ((cs.dropWhile isWsChar).reverse.takeWhile isWsChar).reverse := by
      unfold trimTok
      exact h4.symm
    rw [List.append_assoc, ← h3, h1]
  · intro c hc
    exact List.mem_takeWhile_imp hc
  · intro c hc
    rw [List.mem_reverse] at hc
    exact List.mem_takeWhile_imp hc

theorem balancedAngle_of_trim {cs : List Char}
    (h : balancedAngle (trimTok cs) = true) : balancedAngle cs = true := by
  obtain ⟨l, r, hdec, hl, hr⟩ := trim_decomp cs
  unfold balancedAngle at h ⊢
  simp only [Bool.and_eq_true, beq_iff_eq] at h ⊢
  obtain ⟨hnd, hda⟩ := h
  have hlneu : ∀ c ∈ l, c ≠ '<' ∧ c ≠ '>' := fun c hc => isWsChar_not_bracket (hl c hc)
  have hrneu : ∀ c ∈ r, c ≠ '<' ∧ c ≠ '>' := fun c hc => isWsChar_not_bracket (hr c hc)
  rw [hdec]
  constructor
  · rw [noDip_append, noDip_append]
    rw [depthAfter_neutral _ _ _ _ hlneu, depthAfter_append,
      depthAfter_neutral _ _ _ _ hlneu, hda]
    rw [noDip_neutral _ _ _ _ hlneu, hnd, noDip_neutral _ _ _ _ hrneu]
    rfl
  · rw [depthAfter_append, depthAfter_append, depthAfter_neutral _ _ _ _ hlneu,
      hda, depthAfter_neutral _ _ _ _ hrneu]

theorem balanced_joinSep : ∀ toks : List (List Char),
    (∀ tok ∈ toks, balancedAngle tok = true) →
    balancedAngle (joinSep ',' toks) = true := by
  intro toks
  induction toks with
  | nil => intro _; rfl
  | cons t ts ih =>
    intro h
    have ht := h t (List.mem_cons_self t ts)
    cases ts with
    | nil => simpa [joinSep] using ht
    | cons t2 ts2 =>
      have hrest := ih (fun x hx => h x (List.mem_cons_of_mem t hx))
      unfold balancedAngle at ht hrest ⊢
      simp only [Bool.and_eq_true, beq_iff_eq] at ht hrest ⊢
      obtain ⟨hnd1, hda1⟩ := ht
      obtain ⟨hnd2, hda2⟩ := hrest
      simp only [joinSep]
      constructor
      · rw [noDip_append, hnd1, hda1, noDip_cons]
        rw [if_neg (by decide)]
        rw [show stepDepth '<' '>' 0 ',' = 0 from rfl, hnd2]
        rfl
      · rw [depthAfter_append, hda1, depthAfter_cons,
          show stepDepth '<' '>' 0 ',' = 0 from rfl, hda2]

theorem splitOn_ne_nil {sep : Char} : ∀ cs : List Char, splitOn sep cs ≠ [] := by
  intro cs
  induction cs with
  | nil => simp [splitOn]
  | cons ch rest ih =>
    unfold splitOn
    by_cases h : (ch == sep) = true
    · rw [if_pos h]
      exact List.cons_ne_nil _ _
    · rw [if_neg h]
      cases hs : splitOn sep rest with
      | nil => exact absurd hs ih
      | cons t ts => exact List.cons_ne_nil _ _

theorem joinSep_splitOn {sep : Char} : ∀ cs : List Char,
    joinSep sep (splitOn sep cs) = cs := by
  intro cs
  induction cs with
  | nil => rfl
  | cons ch rest ih =>
    unfold splitOn
    by_cases h : (ch == sep) = true
    · rw [if_pos h]
      cases hs : splitOn sep rest with
      | nil => exact absurd hs (splitOn_ne_nil rest)
      | cons t ts =>
        rw [hs] at ih
        have hch : ch = sep := by simpa using h
        subst hch
        simp only [joinSep]
        rw [ih]
        simp
    · rw [if_neg h]
      cases hs : splitOn sep rest with
      | nil => exact absurd hs (splitOn_ne_nil rest)
      | cons t ts =>
        rw [hs] at ih
        cases ts with
        | nil =>
          simp only [joinSep] at ih ⊢
          rw [ih]
        | cons t2 ts2 =>
          simp only [joinSep] at ih ⊢
          rw [List.cons_append, ih]

theorem parseSegs_neutral : ∀ (head : List Char) (ps : List TypeTag) (t : TypeTag),
    parseSegs head ps = .ok t → ∀ ch ∈ head, ch ≠ '<' ∧ ch ≠ '>' := by
  intro head ps t h
  unfold parseSegs at h
  split at h
  · rename_i a m n heq
    split_ifs at h with hv
    cases h
    simp only [Bool.and_eq_true] at hv
    obtain ⟨⟨hva, hvm⟩, hvn⟩ := hv
    have hhead : head = a ++ ':' :: ':' :: (m ++ ':' :: ':' :: n) := by
      have hj : joinSep ':' (splitOn ':' head) = head := joinSep_splitOn head
      rw [heq] at hj
      rw [← hj]
      rfl
    intro ch hch
    have hmem : ch ∈ a ∨ ch = ':' ∨ ch ∈ m ∨ ch ∈ n := by
      rw [hhead] at hch
      simp only [List.mem_append, List.mem_cons] at hch
      tauto
    rcases hmem with h1 | h1 | h1 | h1
    · have h2 := validAddress_chars hva ch h1
      exact ⟨h2.1, h2.2.1⟩
    · subst h1
      exact ⟨by decide, by decide⟩
    · have h2 := validIdent_chars hvm ch h1
      exact ⟨h2.1, h2.2.1⟩
    · have h2 := validIdent_chars hvn ch h1
      exact ⟨h2.1, h2.2.1⟩
  · cases h

theorem balanced_of_neutral {cs : List Char}
    (h : ∀ ch ∈ cs, ch ≠ '<' ∧ ch ≠ '>') : balancedAngle cs = true := by
  unfold balancedAngle
  rw [noDip_neutral _ _ _ _ h, depthAfter_neutral _ _ _ _ h]
  rfl

theorem balanced_wrap : ∀ P B : List Char, (∀ ch ∈ P, ch ≠ '<' ∧ ch ≠ '>') →
    balancedAngle B = true →
    balancedAngle (P ++ '<' :: (B ++ ['>'])) = true := by
  intro P B hP hB
  unfold balancedAngle at hB ⊢
  simp only [Bool.and_eq_true, beq_iff_eq] at hB ⊢
  obtain ⟨hnd, hda⟩ := hB
  obtain ⟨hnd1, hda1, _⟩ := scan_shift '<' '>' B 0 1 hnd
  have hnd1' : noDip '<' '>' 1 B = true := hnd1
  have hda1' : depthAfter '<' '>' 1 B = 1 := by
    have h2 : depthAfter '<' '>' (0 + 1) B = depthAfter '<' '>' 0 B + 1 := hda1
    rw [hda] at h2
    exact h2
  constructor
  · rw [noDip_append, noDip_neutral _ _ _ _ hP, depthAfter_neutral _ _ _ _ hP,
      Bool.true_and]
    rw [show noDip '<' '>' 0 ('<' :: (B ++ ['>'])) =
        noDip '<' '>' 1 (B ++ ['>']) from rfl]
    rw [noDip_append, hnd1', Bool.true_and, hda1']
    decide
  · rw [depthAfter_append, depthAfter_neutral _ _ _ _ hP]
    rw [show depthAfter '<' '>' 0 ('<' :: (B ++ ['>'])) =
        depthAfter '<' '>' 1 (B ++ ['>']) from rfl]
    rw [depthAfter_append, hda1']
    decide

theorem struct_token_balanced : ∀ (cs0 : List Char) (ps : List TypeTag) (t : TypeTag),
    cs0.getLast? = some '>' →
    (∀ tok ∈ splitTop '<' '>' ((cs0.drop (idxOfChar '<' cs0 + 1)).dropLast),
      balancedAngle tok = true) →
    parseSegs (cs0.take (idxOfChar '<' cs0)) ps = .ok t →
    cs0.any (fun ch => ch == '<') = true →
    balancedAngle cs0 = true := by
  intro cs0 ps t hlast hinner hsegs hany
  obtain ⟨hdec, _⟩ := idxOf_decomp cs0 '<' hany
  have hR : cs0.drop (idxOfChar '<' cs0 + 1) ≠ [] := by
    intro h0
    rw [h0] at hdec
    rw [hdec] at hlast
    rw [getLast?_append_of_ne_nil _ (List.cons_ne_nil _ _)] at hlast
    exact absurd hlast (by decide)
  have hRlast : (cs0.drop (idxOfChar '<' cs0 + 1)).getLast? = some '>' := by
    have h1 : (cs0.take (idxOfChar '<' cs0) ++
        '<' :: cs0.drop (idxOfChar '<' cs0 + 1)).getLast? = some '>' := by
      rw [← hdec]
      exact hlast
    rw [getLast?_append_of_ne_nil _ (List.cons_ne_nil _ _)] at h1
    rw [show ('<' :: cs0.drop (idxOfChar '<' cs0 + 1) : List Char) =
        ['<'] ++ cs0.drop (idxOfChar '<' cs0 + 1) from rfl] at h1
    rw [getLast?_append_of_ne_nil _ hR] at h1
    exact h1
  have hRdec : cs0.drop (idxOfChar '<' cs0 + 1) =
      (cs0.drop (idxOfChar '<' cs0 + 1)).dropLast ++ ['>'] :=
    eq_dropLast_concat_of_getLast? hRlast
  have hbi : balancedAngle ((cs0.drop (idxOfChar '<' cs0 + 1)).dropLast) = true := by
    rw [← joinSep_splitTopD '<' '>' ((cs0.drop (idxOfChar '<' cs0 + 1)).dropLast) 0]
    exact balanced_joinSep _ hinner
  have hPneu : ∀ ch ∈ cs0.take (idxOfChar '<' cs0), ch ≠ '<' ∧ ch ≠ '>' :=
    parseSegs_neutral _ ps t hsegs
  rw [hdec, hRdec]
  exact balanced_wrap _ _ hPneu hbi

theorem parse_balanced : ∀ (fuel : Nat) (cs : List Char) (t : TypeTag),
    parseTagF fuel cs = .ok t → balancedAngle (trimTok cs) = true := by
  intro fuel
  induction fuel with
  | zero =>
    intro cs t h
    cases h
  | succ fuelN ih =>
    intro cs t h
    simp only [parseTagF] at h
    split at h
    · rename_i rest heq
      rw [heq]
      split_ifs at h with h1 h2 h3 h4 h5 h6
      · subst h1; decide
      · subst h2; decide
      · subst h3; decide
      · subst h4; decide
      · subst h5; decide
      · subst h6; decide
    · rename_i rest heq
      rw [heq]
      split_ifs at h with h1
      subst h1
      decide
    · rename_i rest heq
      rw [heq]
      split_ifs at h with h1
      subst h1
      decide
    · rename_i rest heq
      rw [heq]
      split_ifs at h with h1
      subst h1
      decide
    · rename_i rest heq
      rw [heq]
      split at h
      · rename_i body
        split_ifs at h with hlast
        split at h
        · rename_i t2 heq3
          have hb2 : balancedAngle body.dropLast = true :=
            balancedAngle_of_trim (ih _ _ heq3)
          rw [eq_dropLast_concat_of_getLast? hlast]
          exact balanced_wrap ['v', 'e', 'c', 't', 'o', 'r'] body.dropLast
            (by decide) hb2
        · cases h
      · cases h
    · rename_i rest heq
      rw [heq]
      split_ifs at h with hany hlast
      · split at h
        · rename_i ps heq2
          have hf := exList_ok_forall₂ (parseTagF fuelN) _ _ heq2
          have hinner : ∀ tok ∈ splitTop '<' '>'
              ((('0' :: rest).drop (idxOfChar '<' ('0' :: rest) + 1)).dropLast),
              balancedAngle tok = true := by
            intro tok htok
            obtain ⟨x, _, hx⟩ := forall₂_mem_left hf tok htok
            exact balancedAngle_of_trim (ih tok x hx)
          exact struct_token_balanced _ ps t hlast hinner h hany
        · cases h
      · exact balanced_of_neutral (parseSegs_neutral _ _ _ h)
    · cases h

theorem parseSegs_err : ∀ (head : List Char) (ps : List TypeTag) (e : TxError),
    parseSegs head ps = .error e → e = .parseError := by
  intro head ps e h
  unfold parseSegs at h
  split at h
  · split_ifs at h <;> (cases h; rfl)
  · cases h
    rfl

theorem exList_error_eq {α : Type} (f : List Char → Except TxError α) :
    ∀ (toks : List (List Char)) (e : TxError), exList f toks = .error e →
      ∃ tok ∈ toks, f tok = .error e := by
  intro toks
  induction toks with
  | nil =>
    intro e h
    cases h
  | cons tok toks ih =>
    intro e h
    unfold exList at h
    cases hf : f tok with
    | error e2 =>
      rw [hf] at h
      cases h
      exact ⟨tok, List.mem_cons_self tok toks, hf⟩
    | ok x =>
      rw [hf] at h
      cases hrest : exList f toks with
      | error e2 =>
        rw [hrest] at h
        cases h
        obtain ⟨tok2, hmem, hf2⟩ := ih _ hrest
        exact ⟨tok2, List.mem_cons_of_mem _ hmem, hf2⟩
      | ok xs =>
        rw [hrest] at h
        cases h

theorem parse_err : ∀ (fuel : Nat) (cs : List Char) (e : TxError),
    parseTagF fuel cs = .error e → e = .parseError := by
  intro fuel
  induction fuel with
  | zero =>
    intro cs e h
    simp only [parseTagF] at h
    cases h
    rfl
  | succ fuelN ih =>
    intro cs e h
    simp only [parseTagF] at h
    split at h
    · split_ifs at h <;> (cases h; rfl)
    · split_ifs at h <;> (cases h; rfl)
    · split_ifs at h <;> (cases h; rfl)
    · split_ifs at h <;> (cases h; rfl)
    · split at h
      · split_ifs at h with hlast
        · split at h
          · cases h
          · rename_i e2 heq3
            cases h
            exact ih _ _ heq3
        · cases h
          rfl
      · cases h
        rfl
    · split_ifs at h with hany hlast
      · split at h
        · rename_i ps heq2
          exact parseSegs_err _ _ _ h
        · rename_i e2 heq2
          cases h
          obtain ⟨tok, _, hf⟩ := exList_error_eq (parseTagF fuelN) _ _ heq2
          exact ih tok _ hf
      · cases h
        rfl
      · exact parseSegs_err _ _ _ h
    · cases h
      rfl

/-- C4: the modelled Type-Tag Parser accepts the empty string with zero type
arguments; on a nonempty input it fails exactly when some top-level comma
token is accepted by none of the recognized forms (primitive keyword,
vector of a type, qualified struct reference with optional generics, each
with a well-formed address segment); every failure carries the parse
error; every accepted token has balanced angle brackets after trimming, so
a token with unbalanced brackets is always rejected; and the top-level
splitter never treats a comma nested inside the brackets as a separator:
its tokens rejoin to the exact input and none contains a depth-zero
comma. -/
theorem type_tag_parser_errors :
    parseTypeTags [] = .ok [] ∧
    (∀ cs : List Char, cs ≠ [] →
      ((∃ e, parseTypeTags cs = .error e) ↔
        ∃ tok, tok ∈ splitTop '<' '>' cs ∧ ∀ t, parseTagTop tok ≠ .ok t)) ∧
    (∀ (cs : List Char) (e : TxError), parseTypeTags cs = .error e →
      e = .parseError) ∧
    (∀ (tok : List Char) (t : TypeTag), parseTagTop tok = .ok t →
      balancedAngle (trimTok tok) = true) ∧
    (∀ cs : List Char, joinSep ',' (splitTop '<' '>' cs) = cs ∧
      ∀ tok ∈ splitTop '<' '>' cs, noSepAtTop ',' '<' '>' 0 tok = true) := by
  refine ⟨rfl, ?_, ?_, ?_, ?_⟩
  · intro cs hne
    unfold parseTypeTags
    rw [if_neg hne]
    unfold parseTokens
    exact exList_error_iff parseTagTop _
  · intro cs e h
    unfold parseTypeTags at h
    split_ifs at h
    unfold parseTokens at h
    obtain ⟨tok, _, hf⟩ := exList_error_eq parseTagTop _ e h
    exact parse_err _ _ _ hf
  · intro tok t h
    exact parse_balanced _ _ _ h
  · intro cs
    refine ⟨joinSep_splitTopD '<' '>' cs 0, ?_⟩
    obtain ⟨t0, ts, heqs, hh, ht⟩ := splitTopD_tokens '<' '>' cs 0
    intro tok htok
    rw [show splitTop '<' '>' cs = splitTopD '<' '>' cs 0 from rfl, heqs] at htok
    rcases List.mem_cons.mp htok with h1 | h1
    · subst h1
      exact hh
    · exact ht tok h1

/-- Witness for C4: the nonempty input with the single unrecognized token
u9 is rejected, so that token parses to no type tag. -/
theorem type_tag_parser_errors_witness :
    ∃ tok, tok ∈ splitTop '<' '>' ("u9".toList) ∧
      ∀ t, parseTagTop tok ≠ .ok t :=
  (type_tag_parser_errors.2.1 ("u9".toList) (by decide)).mp
    ⟨.parseError, by rfl⟩

end OlTxs
